import Mathlib

/-!
Shallow embedding of the tiny-qucsator DC circuit simulator
(`bin/tiny_qucsator.py`: netlist parser, node indexer, MNA assembler,
Gaussian solver, sweep encoder) and of the result decoder
(`backend/main.py`, function `parse_qucs_dat`).

Idealizations used throughout, stated once here:
* Python `float` values are modelled as exact rationals (`ℚ`); `"%e"`
  formatting is modelled as exact scientific notation with six fractional
  digits and round-half-to-even.
* `str.splitlines` is modelled as splitting on `'\n'` (the claims involve
  no `'\r'` or unicode line separators).
* `float(...)`/`int(...)` literal parsing is modelled without `inf`/`nan`
  and without underscore separators; `re` word/space classes are modelled
  by their ASCII contents.
* Python exceptions (`KeyError`, `IndexError`, `ValueError`,
  `ZeroDivisionError`) are modelled with `Except PyErr`.
-/

set_option maxRecDepth 100000

namespace Qucs

/-- Python exception kinds that the simulator code can raise. -/
inductive PyErr where
  | keyError
  | indexError
  | valueError
  | zeroDivisionError
deriving DecidableEq, Repr

instance exceptDecEq {ε α : Type} [DecidableEq ε] [DecidableEq α] :
    DecidableEq (Except ε α) := fun x y =>
  match x, y with
  | .ok a, .ok b =>
    if h : a = b then isTrue (by rw [h])
    else isFalse (by intro hh; cases hh; exact h rfl)
  | .ok _, .error _ => isFalse (by intro hh; cases hh)
  | .error _, .ok _ => isFalse (by intro hh; cases hh)
  | .error e, .error f =>
    if h : e = f then isTrue (by rw [h])
    else isFalse (by intro hh; cases hh; exact h rfl)

/-- Python whitespace (`str.strip`, `str.split()`, regex `\s`):
space, tab, newline, carriage return, vertical tab, form feed. -/
def isPySpace (c : Char) : Bool :=
  c = ' ' || c = '\t' || c = '\n' || c = '\r' || c = '\x0b' || c = '\x0c'

/-- Python regex `\w` (ASCII part): letters, digits, underscore. -/
def isWordChar (c : Char) : Bool :=
  c.isAlpha || c.isDigit || c = '_'

/-- Python `str.strip()`: drop whitespace from both ends. -/
def pyStrip (l : List Char) : List Char :=
  ((l.dropWhile isPySpace).reverse.dropWhile isPySpace).reverse

theorem length_dropWhile_le (p : Char → Bool) (l : List Char) :
    (l.dropWhile p).length ≤ l.length :=
  (List.dropWhile_suffix p).length_le

/-- Python `str.split()` with no separator: split on whitespace runs,
producing no empty parts. -/
def pySplitWs (l : List Char) : List (List Char) :=
  match l with
  | [] => []
  | c :: cs =>
    if isPySpace c then pySplitWs cs
    else (c :: cs.takeWhile (fun d => !isPySpace d)) ::
         pySplitWs (cs.dropWhile (fun d => !isPySpace d))
termination_by l.length
decreasing_by
  · simp only [List.length_cons]; omega
  · simp only [List.length_cons]
    have := length_dropWhile_le (fun d => !isPySpace d) cs
    omega

/-- Python `str.split(sep)` for a one-character separator: keeps empty parts. -/
def splitOnChar (sep : Char) : List Char → List (List Char)
  | [] => [[]]
  | c :: cs =>
    if c = sep then [] :: splitOnChar sep cs
    else
      match splitOnChar sep cs with
      | [] => [[c]]
      | t :: ts => (c :: t) :: ts

/-- One attempted match of the parameter regex `(\w+)="([^"]+)"` at the
current position: a nonempty word run, then `="`, then at least one
non-quote character, then the closing quote.  Returns the captured
(key, value) and the remaining input after the match. -/
def tryParam (l : List Char) : Option ((List Char × List Char) × List Char) :=
  match l.takeWhile isWordChar, l.dropWhile isWordChar with
  | [], _ => none
  | key, '=' :: '"' :: rest =>
    match rest.takeWhile (fun c => c ≠ '"'), rest.dropWhile (fun c => c ≠ '"') with
    | [], _ => none
    | v, '"' :: rest2 => some ((key, v), rest2)
    | _, _ => none
  | _, _ => none

theorem takeWhile_ne_nil_length_lt {p : Char → Bool} {l : List Char}
    (h : l.takeWhile p ≠ []) : (l.dropWhile p).length < l.length := by
  cases l with
  | nil => simp [List.takeWhile] at h
  | cons c cs =>
    by_cases hc : p c
    · rw [List.dropWhile_cons_of_pos hc]
      simp only [List.length_cons]
      exact Nat.lt_succ_of_le (length_dropWhile_le p cs)
    · rw [List.takeWhile_cons_of_neg hc] at h
      exact absurd rfl h

theorem tryParam_rest_lt {l : List Char} {kv : List Char × List Char} {r : List Char}
    (h : tryParam l = some (kv, r)) : r.length < l.length := by
  unfold tryParam at h
  split at h
  · exact absurd h (by simp)
  · rename_i key rest hkey hdrop
    split at h
    · exact absurd h (by simp)
    · rename_i hne2 hveq
      have hd1 := takeWhile_ne_nil_length_lt (p := isWordChar) (l := l) hdrop
      rw [hkey] at hd1
      have hd2 := length_dropWhile_le (fun c => decide (c ≠ '"')) rest
      rw [hne2] at hd2
      rw [Option.some.injEq, Prod.mk.injEq] at h
      obtain ⟨-, hr⟩ := h
      subst hr
      simp only [List.length_cons] at hd1 hd2
      omega
    · exact absurd h (by simp)
  · exact absurd h (by simp)

/-- `re.finditer` over the parameter regex: scan left to right, trying a
match at every position and continuing after each successful match
(non-overlapping matches, as `finditer` produces). -/
def scanParams (l : List Char) : List (List Char × List Char) :=
  match h : tryParam l with
  | some (kv, r) => kv :: scanParams r
  | none =>
    match l with
    | [] => []
    | _ :: cs => scanParams cs
termination_by l.length
decreasing_by
  · exact tryParam_rest_lt h
  · simp only [List.length_cons]; omega

/-- The value a Python dict built by repeated `d[k] = v` assignments holds
for key `k`: the last assigned value, `none` if the key is absent. -/
def pyFind (ps : List (List Char × List Char)) (k : List Char) : Option (List Char) :=
  ((ps.filter (fun kv => kv.1 == k)).getLast?).map (fun kv => kv.2)

/-- Python `dict.get(k, default)`. -/
def pyGet (ps : List (List Char × List Char)) (k dflt : List Char) : List Char :=
  (pyFind ps k).getD dflt

/-- Python `==` on two dicts represented as assignment lists: the same
keys are present and each key holds the same (last-assigned) value. -/
def pyDictEq (a b : List (List Char × List Char)) : Bool :=
  a.all (fun kv => pyFind b kv.1 == pyFind a kv.1) &&
  b.all (fun kv => pyFind a kv.1 == pyFind b kv.1)

/-- Numeric value of a decimal digit character. -/
def digToNat (c : Char) : Nat := c.toNat - 48

/-- Value of a most-significant-first digit string. -/
def digitsVal (ds : List Char) : Nat :=
  ds.foldl (fun a c => 10 * a + digToNat c) 0

/-- Python `float(str)` on ordinary literals, idealized over `ℚ`:
optional surrounding whitespace, optional sign, an integer and/or
fractional digit part, optional exponent.  (`inf`/`nan` and underscore
separators are outside the model.) -/
def pyFloat (l0 : List Char) : Option ℚ :=
  let l := pyStrip l0
  let sgn : Bool := l.head? = some '-'
  let l := match l with
    | '-' :: r => r
    | '+' :: r => r
    | r => r
  let ip := l.takeWhile Char.isDigit
  let l1 := l.dropWhile Char.isDigit
  let fr := match l1 with
    | '.' :: r => r.takeWhile Char.isDigit
    | _ => []
  let l2 := match l1 with
    | '.' :: r => r.dropWhile Char.isDigit
    | r => r
  if ip = [] ∧ fr = [] then none
  else
    let mag : ℚ := (digitsVal ip : ℚ) + (digitsVal fr : ℚ) / (10 : ℚ) ^ fr.length
    let signed : ℚ := if sgn then -mag else mag
    match l2 with
    | [] => some signed
    | 'e' :: r | 'E' :: r =>
      let esgn : Bool := r.head? = some '-'
      let r2 := match r with
        | '-' :: s => s
        | '+' :: s => s
        | s => s
      let ed := r2.takeWhile Char.isDigit
      if ed = [] then none
      else if r2.dropWhile Char.isDigit ≠ [] then none
      else
        let e : ℤ := if esgn then -(digitsVal ed : ℤ) else (digitsVal ed : ℤ)
        some (signed * (10 : ℚ) ^ e)
    | _ => none

/-- Python `int(str)`: optional surrounding whitespace, optional sign,
one or more digits. -/
def pyInt (l0 : List Char) : Option ℤ :=
  let l := pyStrip l0
  let sgn : Bool := l.head? = some '-'
  let l := match l with
    | '-' :: r => r
    | '+' :: r => r
    | r => r
  let ds := l.takeWhile Char.isDigit
  if ds = [] then none
  else if l.dropWhile Char.isDigit ≠ [] then none
  else some (if sgn then -(digitsVal ds : ℤ) else (digitsVal ds : ℤ))

/-! ## Netlist parser (`solve`, lines 9-59 of `tiny_qucsator.py`) -/

/-- A parsed component instance: the dict
`{'type': ..., 'name': ..., 'nodes': ..., 'params': ...}` built by the
parse loop.  `params` keeps the raw `finditer` match list; dict reads go
through `pyGet`/`pyFind` (last assignment wins). -/
structure Component where
  ctype : List Char
  cname : List Char
  nodes : List (List Char)
  params : List (List Char × List Char)
deriving DecidableEq, Repr

/-- Python `==` on two component dicts (`list.index` uses it):
`type`, `name` and the node list compare structurally, `params` compares
as a dict. -/
def pyCompEq (a b : Component) : Bool :=
  a.ctype == b.ctype && a.cname == b.cname && a.nodes == b.nodes &&
  pyDictEq a.params b.params

/-- Outcome of processing one netlist line. -/
inductive LineOut where
  | skip
  | dc (params : List (List Char × List Char))
  | comp (c : Component)
deriving DecidableEq, Repr

/-- Processing of one netlist line by the parse loop: strip; skip blank
and `#` lines; extract `key="value"` parameters; the first whitespace
token is the identity token; `.DC`-prefixed lines update the sweep
directive; tokens up to the first one containing `=` are nodes. -/
def parseLine (line : List Char) : LineOut :=
  let l := pyStrip line
  if l = [] then .skip
  else if l.head? = some '#' then .skip
  else
    let params := scanParams l
    match pySplitWs l with
    | [] => .skip   -- unreachable: `l` is nonempty with no leading space
    | tid :: rest =>
      if ".DC".toList.isPrefixOf tid then .dc params
      else if ¬ tid.contains ':' then .skip
      else
        let segs := splitOnChar ':' tid
        let nodes := rest.takeWhile (fun p => ¬ p.contains '=')
        .comp ⟨segs.headD [], segs.getD 1 [], nodes, params⟩

/-- Accumulated state of the parse loop: components in order, node
tokens in registration order, and `sim_cmd` (the last `.DC` line's
parameter dict, replaced wholesale on each `.DC` line). -/
structure ParseOut where
  comps : List Component
  nodeTokens : List (List Char)
  simCmd : Option (List (List Char × List Char))
deriving DecidableEq, Repr

def parseStep (st : ParseOut) (line : List Char) : ParseOut :=
  match parseLine line with
  | .skip => st
  | .dc ps => { st with simCmd := some ps }
  | .comp c =>
    { comps := st.comps ++ [c]
      nodeTokens := st.nodeTokens ++ c.nodes
      simCmd := st.simCmd }

/-- The full parse loop over `netlist_str.splitlines()`. -/
def parseNetlist (txt : List Char) : ParseOut :=
  (splitOnChar '\n' txt).foldl parseStep ⟨[], [], none⟩

/-! ## Node indexing (`solve`, lines 61-67) -/

/-- Lexicographic strict comparison on code points, as Python `<` on `str`. -/
def lexLt : List Char → List Char → Bool
  | [], [] => false
  | [], _ :: _ => true
  | _ :: _, [] => false
  | a :: as, b :: bs =>
    if a.val < b.val then true
    else if b.val < a.val then false
    else lexLt as bs

/-- The `≤` used to model Python `sorted` on node-name strings. -/
def strLeB (a b : List Char) : Bool := !(lexLt b a)

/-- `sorted(list(nodes))` with `'0'` and `'gnd'` then removed: the free
node list; a node's MNA index is its position in this list. -/
def nodeListOf (tokens : List (List Char)) : List (List Char) :=
  ((List.insertionSort (fun a b => strLeB a b = true) tokens.dedup).erase
      "0".toList).erase "gnd".toList

/-- Node-token resolution at stamp time: the reference node resolves to
`none` (Python `-1`), a free node to its index, and an unknown node is a
`KeyError` (unreachable for tokens registered during parsing). -/
def resolveNode (nl : List (List Char)) (n : List Char) : Except PyErr (Option Nat) :=
  if n = "0".toList || n = "gnd".toList then .ok none
  else
    match nl.findIdx? (fun m => m == n) with
    | some i => .ok (some i)
    | none => .error .keyError

/-! ## MNA assembly (`solve`, lines 69-114) -/

/-- Matrices are index functions; the Python lists-of-lists are only
ever read and written through integer indices. -/
abbrev Mat := Nat → Nat → ℚ

abbrev Vec := Nat → ℚ

/-- `G[a][b] += v`. -/
def mAdd (g : Mat) (a b : Nat) (v : ℚ) : Mat :=
  fun i j => if i = a ∧ j = b then g i j + v else g i j

/-- A sequence of `+=` updates applied in program order. -/
def applyAdds (g : Mat) (L : List (Nat × Nat × ℚ)) : Mat :=
  L.foldl (fun g e => mAdd g e.1 e.2.1 e.2.2) g

/-- `I[a] += v`. -/
def vAdd (x : Vec) (a : Nat) (v : ℚ) : Vec :=
  fun i => if i = a then x i + v else x i

def applyVAdds (x : Vec) (L : List (Nat × ℚ)) : Vec :=
  L.foldl (fun x e => vAdd x e.1 e.2) x

/-- Conversion of `dict.get`-then-`float(...)` to `Except`: a parse
failure is Python's `ValueError`. -/
def toFloatExc (s : List Char) : Except PyErr ℚ :=
  match pyFloat s with
  | some v => .ok v
  | none => .error .valueError

/-- The matrix/vector updates of the `R` stamp, in program order, given
the two resolved terminals and the conductance. -/
def rStampUpds (n1 n2 : Option Nat) (g : ℚ) : List (Nat × Nat × ℚ) :=
  (match n1 with | some a => [(a, a, g)] | none => []) ++
  (match n2 with | some b => [(b, b, g)] | none => []) ++
  (match n1, n2 with
   | some a, some b => [(a, b, -g), (b, a, -g)]
   | _, _ => [])

/-- The matrix updates of the `Vdc` stamp (KVL `+1`/`-1` pairs). -/
def vStampUpds (n1 n2 : Option Nat) (vIdx : Nat) : List (Nat × Nat × ℚ) :=
  (match n1 with | some a => [(a, vIdx, 1), (vIdx, a, 1)] | none => []) ++
  (match n2 with | some b => [(b, vIdx, -1), (vIdx, b, -1)] | none => [])

/-- The per-component node-resolution loop (`nis = []; for n in c['nodes']: ...`). -/
def resolveList (nl : List (List Char)) : List (List Char) → Except PyErr (List (Option Nat))
  | [] => .ok []
  | n :: ns => do
    let i ← resolveNode nl n
    let rest ← resolveList nl ns
    .ok (i :: rest)

/-- The stamp of one component: resolve its node tokens, then dispatch
on the type tag.  `R` and `Vdc` components read their value parameter
(defaults `"1000"` / `"1"`), need at least two resolved terminals
(`IndexError` otherwise), and `R` divides by the parsed value
(`ZeroDivisionError` on zero).  A `Vdc` finds its auxiliary index as
`N +` the position of the first `==`-equal element of the voltage-source
list, exactly as `vsources.index(c)` does.  Unknown types stamp nothing. -/
def stampOne (nl : List (List Char)) (vs : List Component) (N : Nat)
    (GI : Mat × Vec) (c : Component) : Except PyErr (Mat × Vec) := do
  let nis ← resolveList nl c.nodes
  if c.ctype = "R".toList then
    let val ← toFloatExc (pyGet c.params "R".toList "1000".toList)
    if val = 0 then .error .zeroDivisionError
    else
      let g := 1 / val
      match nis with
      | n1 :: n2 :: _ => .ok (applyAdds GI.1 (rStampUpds n1 n2 g), GI.2)
      | _ => .error .indexError
  else if c.ctype = "Vdc".toList then
    let vIdx ← match vs.findIdx? (fun v => pyCompEq v c) with
      | some k => .ok (N + k)
      | none => .error .valueError   -- list.index raises ValueError if absent
    let val ← toFloatExc (pyGet c.params "U".toList "1".toList)
    match nis with
    | n1 :: n2 :: _ =>
      .ok (applyAdds GI.1 (vStampUpds n1 n2 vIdx), applyVAdds GI.2 [(vIdx, val)])
    | _ => .error .indexError
  else
    .ok GI

/-- The stamp loop over all components. -/
def stampList (nl : List (List Char)) (vs : List Component) (N : Nat) :
    List Component → Mat × Vec → Except PyErr (Mat × Vec)
  | [], GI => .ok GI
  | c :: cs, GI => do stampList nl vs N cs (← stampOne nl vs N GI c)

/-- The voltage-source sub-list `[c for c in components if c['type'] == 'Vdc']`. -/
def vsourcesOf (comps : List Component) : List Component :=
  comps.filter (fun c => c.ctype == "Vdc".toList)

/-- Assemble `(G, I)` for a parsed netlist, starting from the
zero-initialized system of size `N + M`. -/
def assemble (po : ParseOut) : Except PyErr (Mat × Vec) :=
  let nl := nodeListOf po.nodeTokens
  stampList nl (vsourcesOf po.comps) nl.length po.comps (fun _ _ => 0, fun _ => 0)

/-! ## Linear solver (`solve`, lines 116-139) -/

/-- The singular-pivot tolerance `1e-12`. -/
def eps : ℚ := 1 / 10 ^ 12

/-- One inner iteration of forward elimination: eliminate row `j` using
pivot row `i` (row entries with column `< i` are not touched, matching
the `for k in range(i, size)` loop). -/
def fwdRow (size i : Nat) (pivot : ℚ) (GI : Mat × Vec) (j : Nat) : Mat × Vec :=
  let factor := GI.1 j i / pivot
  (fun a b => if a = j ∧ i ≤ b ∧ b < size then GI.1 a b - factor * GI.1 i b else GI.1 a b,
   fun a => if a = j then GI.2 a - factor * GI.2 i else GI.2 a)

/-- One outer iteration of forward elimination: skip the pivot entirely
when `abs(pivot) < 1e-12`, otherwise eliminate all rows below. -/
def fwdStep (size : Nat) (GI : Mat × Vec) (i : Nat) : Mat × Vec :=
  let pivot := GI.1 i i
  if |pivot| < eps then GI
  else (List.range' (i + 1) (size - (i + 1))).foldl (fwdRow size i pivot) GI

/-- Forward elimination over pivots `0, ..., size-1`. -/
def forward (size : Nat) (G : Mat) (I : Vec) : Mat × Vec :=
  (List.range size).foldl (fwdStep size) (G, I)

/-- `range(size-1, -1, -1)` as a list: `[size-1, ..., 1, 0]`. -/
def descList : Nat → List Nat
  | 0 => []
  | n + 1 => n :: descList n

/-- `sum(G[i][j] * x[j] for j in range(i+1, size))`. -/
def rowSum (G : Mat) (x : Vec) (i size : Nat) : ℚ :=
  (List.range' (i + 1) (size - (i + 1))).foldl (fun a j => a + G i j * x j) 0

/-- The back-substitution loop: descending rows; a row is solved only
when `abs(G[i][i]) > 1e-12` (strictly), otherwise `x[i]` keeps its
initial `0`. -/
def backLoop (G : Mat) (I : Vec) (size : Nat) : List Nat → Vec → Vec
  | [], x => x
  | i :: rest, x =>
    let s := rowSum G x i size
    let x2 := if eps < |G i i| then (fun a => if a = i then (I i - s) / G i i else x a) else x
    backLoop G I size rest x2

def backward (size : Nat) (G : Mat) (I : Vec) : Vec :=
  backLoop G I size (descList size) (fun _ => 0)

/-- Forward elimination followed by back-substitution. -/
def solveLin (size : Nat) (G : Mat) (I : Vec) : Vec :=
  let GI := forward size G I
  backward size GI.1 GI.2

/-- The whole `solve` function: parse, index, assemble, solve.  Returns
the free node list (the node map, by position) and the solution vector. -/
def solve (txt : List Char) : Except PyErr (List (List Char) × Vec) := do
  let po := parseNetlist txt
  let nl := nodeListOf po.nodeTokens
  let vs := vsourcesOf po.comps
  let GI ← stampList nl vs nl.length po.comps (fun _ _ => 0, fun _ => 0)
  .ok (nl, solveLin (nl.length + vs.length) GI.1 GI.2)

/-! ## Sweep/result encoder (`main`, lines 141-190) -/

/-- Little-endian decimal digits, by fuel-bounded division (the fuel
`m + 1` always exceeds the digit count, so the `[]` branch is never
taken; structural recursion on the fuel keeps kernel reduction shallow). -/
def natDigitsRevF : Nat → Nat → List Nat
  | 0, _ => []
  | fuel + 1, m => if m < 10 then [m] else (m % 10) :: natDigitsRevF fuel (m / 10)

def natDigitsRev (m : Nat) : List Nat := natDigitsRevF (m + 1) m

/-- Most-significant-first decimal digits. -/
def natDigits (m : Nat) : List Nat := (natDigitsRev m).reverse

/-- Fuel-bounded floor of `log10`: `log10F fuel n` counts how many times
`n` can be divided by 10 before falling below 10. -/
def log10F : Nat → Nat → Nat
  | 0, _ => 0
  | fuel + 1, n => if n < 10 then 0 else log10F fuel (n / 10) + 1

/-- Floor of `log10 n` for `n ≥ 1` (0 for `n ≤ 1`). -/
def natLog10 (n : Nat) : Nat := log10F (n + 1) n

def digitChar (d : Nat) : Char := Char.ofNat (48 + d)

/-- Decimal rendering of a natural number, as Python `str`. -/
def renderNat (m : Nat) : List Char := (natDigits m).map digitChar

/-- Decimal rendering of an integer, as Python `str`. -/
def renderInt (z : ℤ) : List Char :=
  (if z < 0 then ['-'] else []) ++ renderNat z.natAbs

/-- Round `n / d` (with `d > 0`) to the nearest integer, ties to even —
the rounding of IEEE binary-to-decimal conversion that `"%e"` applies. -/
def roundHalfEven (n d : Nat) : Nat :=
  let q := n / d
  let r := n % d
  if 2 * r < d then q
  else if d < 2 * r then q + 1
  else if q % 2 = 0 then q else q + 1

/-- Floor of `log10 (n / d)` for positive `n`, `d`. -/
def qLog10 (n d : Nat) : ℤ :=
  let a : ℤ := natLog10 n
  let b : ℤ := natLog10 d
  if d * 10 ^ natLog10 n ≤ n * 10 ^ natLog10 d then a - b else a - b - 1

def padLeftZeros (k : Nat) (l : List Char) : List Char :=
  List.replicate (k - l.length) '0' ++ l

/-- The rounded 7-digit mantissa and decimal exponent of a nonzero `q`:
`|q| ≈ (m / 10^6) * 10^E` with `m` rounded half-to-even to seven digits
(a carry into an eighth digit bumps the exponent instead). -/
def fmtEmant (q : ℚ) : Nat × ℤ :=
  let n := q.num.natAbs
  let d := q.den
  let E := qLog10 n d
  let scaledN := n * 10 ^ (6 - E).toNat
  let scaledD := d * 10 ^ (E - 6).toNat
  let m0 := roundHalfEven scaledN scaledD
  if m0 = 10 ^ 7 then (10 ^ 6, E + 1) else (m0, E)

/-- Python `f"{val:e}"` idealized on `ℚ`: scientific notation with one
leading digit, six fractional digits (round half to even) and a signed,
two-digit-minimum exponent. -/
def fmtE (q : ℚ) : List Char :=
  if q = 0 then "0.000000e+00".toList
  else
    let me := fmtEmant q
    let ds := (natDigits me.1).map digitChar
    (if q < 0 then ['-'] else []) ++
      ds.headD '0' :: '.' :: padLeftZeros 6 ds.tail ++
      'e' :: (if me.2 < 0 then '-' else '+') :: padLeftZeros 2 (renderNat me.2.natAbs)

/-- The sweep-parameter dict that `main` re-reads from the netlist: all
`key="value"` pairs of every line whose stripped text starts with `.DC`,
assigned in order into one dict (so later lines override earlier lines
key by key). -/
def simParamsOf (txt : List Char) : List (List Char × List Char) :=
  (splitOnChar '\n' txt).foldl
    (fun acc line =>
      if ".DC".toList.isPrefixOf (pyStrip line) then acc ++ scanParams line
      else acc)
    []

/-- Kinds of output blocks. -/
inductive BKind where
  | indep
  | dep
deriving DecidableEq, Repr

def kindChars : BKind → List Char
  | .indep => "indep".toList
  | .dep => "dep".toList

/-- One tagged output block, as the encoder writes it:
`<KIND NAME TYP>` + body + `</KIND>` + newline.  The body starts with
the newline the encoder writes right after the header. -/
structure Blk where
  kind : BKind
  bname : List Char
  btyp : List Char
  body : List Char
deriving DecidableEq, Repr

def renderBlk (b : Blk) : List Char :=
  '<' :: (kindChars b.kind ++ ' ' :: b.bname ++ ' ' :: b.btyp ++ '>' :: b.body)
    ++ '<' :: '/' :: (kindChars b.kind ++ ['>', '\n'])

def renderBlocks (bs : List Blk) : List Char := (bs.map renderBlk).flatten

/-- The body of a block holding a list of values: a newline after the
header, then one `"%e"`-formatted value per line. -/
def valBody (vals : List ℚ) : List Char :=
  '\n' :: (vals.map (fun v => fmtE v ++ ['\n'])).flatten

/-- The blocks `main` emits: one `indep` block for the sweep (linearly
spaced `Points` values from `Start`, step `(Stop-Start)/(Points-1)` when
`Points > 1` else `0`), then one `dep` block per free node in node-map
order with the node's solved value repeated `Points` times. -/
def encodeBlocks (txt : List Char) (nl : List (List Char)) (x : Vec) :
    Except PyErr (List Blk) := do
  let sp := simParamsOf txt
  let start ← toFloatExc (pyGet sp "Start".toList "0".toList)
  let stop ← toFloatExc (pyGet sp "Stop".toList "10".toList)
  let points ← match pyInt (pyGet sp "Points".toList "2".toList) with
    | some z => .ok z
    | none => .error .valueError
  let param := pyGet sp "Param".toList "sweep".toList
  let step := if 1 < points then (stop - start) / ((points : ℚ) - 1) else 0
  let ivals := (List.range points.toNat).map (fun (i : Nat) => start + (i : ℚ) * step)
  .ok (⟨.indep, param, renderInt points, valBody ivals⟩ ::
       nl.enum.map (fun p => ⟨.dep, p.2, param, valBody (List.replicate points.toNat (x p.1))⟩))

/-- The whole `main` pipeline on netlist text: `solve`, re-read the sweep
parameters, write the output file.  Returns the output text. -/
def run (txt : List Char) : Except PyErr (List Char) := do
  let r ← solve txt
  let bs ← encodeBlocks txt r.1 r.2
  .ok (renderBlocks bs)

/-! ## Result decoder (`backend/main.py`, `parse_qucs_dat`, lines 141-174)

The block regex `<((?:in)?dep)\s+(\w+)\s+(\w+)>(.*?)</\1>` (DOTALL) is
embedded as a position-scanner: the alternation `(?:in)?dep` commits to
`indep` when the text continues with it and to `dep` otherwise (the two
cannot both match at one position), the `\s+`/`\w+` runs are maximal
(the classes are disjoint from what must follow), and the non-greedy
`(.*?)</\1>` reaches exactly to the first occurrence of the closing
tag. -/

/-- Match `(?:in)?dep` at the current position. -/
def takeKind (l : List Char) : Option (BKind × List Char) :=
  if "indep".toList.isPrefixOf l then some (.indep, l.drop 5)
  else if "dep".toList.isPrefixOf l then some (.dep, l.drop 3)
  else none

/-- Split at the first occurrence of `tag`: returns the text before it
and the text after it. -/
def splitAtFirst (tag : List Char) : List Char → Option (List Char × List Char)
  | [] => if tag = [] then some ([], []) else none
  | c :: cs =>
    if tag.isPrefixOf (c :: cs) then some ([], (c :: cs).drop tag.length)
    else
      match splitAtFirst tag cs with
      | some (pre, post) => some (c :: pre, post)
      | none => none

theorem splitAtFirst_length {tag l pre post : List Char}
    (h : splitAtFirst tag l = some (pre, post)) :
    pre.length + tag.length + post.length = l.length := by
  induction l generalizing pre post with
  | nil =>
    unfold splitAtFirst at h
    split at h
    · rename_i ht
      rw [Option.some.injEq, Prod.mk.injEq] at h
      obtain ⟨h1, h2⟩ := h
      subst h1; subst h2
      simp [ht]
    · exact absurd h (by simp)
  | cons c cs ih =>
    unfold splitAtFirst at h
    split at h
    · rename_i hp
      rw [Option.some.injEq, Prod.mk.injEq] at h
      obtain ⟨h1, h2⟩ := h
      subst h1; subst h2
      have hl := (List.isPrefixOf_iff_prefix.mp hp).length_le
      simp only [List.length_nil, List.length_drop, List.length_cons] at *
      omega
    · rename_i hp
      cases hsp : splitAtFirst tag cs with
      | none => rw [hsp] at h; exact absurd h (by simp)
      | some pq =>
        rw [hsp] at h
        rw [Option.some.injEq] at h
        obtain ⟨p, q⟩ := pq
        rw [Prod.mk.injEq] at h
        obtain ⟨h1, h2⟩ := h
        subst h1; subst h2
        have := ih hsp
        simp only [List.length_cons]
        omega

/-- One attempted block match at the current position. Returns the
captured name, the data region, and the input after the match. -/
def tryBlock (l : List Char) : Option (List Char × List Char × List Char) :=
  match l with
  | '<' :: r0 =>
    match takeKind r0 with
    | none => none
    | some (k, r1) =>
      let ws1 := r1.takeWhile isPySpace
      let r2 := r1.dropWhile isPySpace
      let nm := r2.takeWhile isWordChar
      let r3 := r2.dropWhile isWordChar
      let ws2 := r3.takeWhile isPySpace
      let r4 := r3.dropWhile isPySpace
      let ty := r4.takeWhile isWordChar
      if ws1 = [] ∨ nm = [] ∨ ws2 = [] ∨ ty = [] then none
      else
        match r4.dropWhile isWordChar with
        | '>' :: r5 =>
          match splitAtFirst ('<' :: '/' :: (kindChars k ++ ['>'])) r5 with
          | some (data, rest) => some (nm, data, rest)
          | none => none
        | _ => none
  | _ => none

theorem takeKind_rest_le {l : List Char} {k : BKind} {r : List Char}
    (h : takeKind l = some (k, r)) : r.length ≤ l.length := by
  unfold takeKind at h
  split at h
  · rw [Option.some.injEq, Prod.mk.injEq] at h
    obtain ⟨-, h2⟩ := h
    subst h2
    simp
  · split at h
    · rw [Option.some.injEq, Prod.mk.injEq] at h
      obtain ⟨-, h2⟩ := h
      subst h2
      simp
    · exact absurd h (by simp)

theorem tryBlock_rest_lt {l : List Char} {nm data rest : List Char}
    (h : tryBlock l = some (nm, data, rest)) : rest.length < l.length := by
  unfold tryBlock at h
  split at h
  · rename_i r0
    cases htk : takeKind r0 with
    | none => rw [htk] at h; exact absurd h (by simp)
    | some kr =>
      obtain ⟨k, r1⟩ := kr
      rw [htk] at h
      simp only at h
      split at h
      · exact absurd h (by simp)
      · have hr1 := takeKind_rest_le htk
        have hr2 := length_dropWhile_le isPySpace r1
        have hr3 := length_dropWhile_le isWordChar (r1.dropWhile isPySpace)
        have hr4 := length_dropWhile_le isPySpace
          ((r1.dropWhile isPySpace).dropWhile isWordChar)
        split at h
        · rename_i r5 hr5
          cases hsp : splitAtFirst ('<' :: '/' :: (kindChars k ++ ['>'])) r5 with
          | none => rw [hsp] at h; exact absurd h (by simp)
          | some pq =>
            obtain ⟨data2, rest2⟩ := pq
            rw [hsp] at h
            rw [Option.some.injEq, Prod.mk.injEq] at h
            obtain ⟨-, h2⟩ := h
            rw [Prod.mk.injEq] at h2
            obtain ⟨-, h3⟩ := h2
            subst h3
            have hlen := splitAtFirst_length hsp
            have hr6 := length_dropWhile_le isWordChar
              (((r1.dropWhile isPySpace).dropWhile isWordChar).dropWhile isPySpace)
            rw [hr5] at hr6
            simp only [List.length_cons, List.length_append] at *
            omega
        · exact absurd h (by simp)
  · exact absurd h (by simp)

/-- `re.finditer` over the block regex: try a match at every position,
continuing after each successful match. -/
def scanBlocks (l : List Char) : List (List Char × List Char) :=
  match h : tryBlock l with
  | some (nm, data, rest) => (nm, data) :: scanBlocks rest
  | none =>
    match l with
    | [] => []
    | _ :: cs => scanBlocks cs
termination_by l.length
decreasing_by
  · exact tryBlock_rest_lt h
  · simp only [List.length_cons]; omega

/-- Per-block value parsing: `data.strip().split()`, each token through
`float(...)`, unparseable tokens silently dropped. -/
def parseVals (data : List Char) : List ℚ :=
  (pySplitWs (pyStrip data)).filterMap pyFloat

/-- The assignments `results[name] = values` in match order. -/
def decodeAssign (content : List Char) : List (List Char × List ℚ) :=
  (scanBlocks content).map (fun p => (p.1, parseVals p.2))

/-- The value the `results` dict holds for `name` after all assignments:
the last one wins. -/
def decodeLookup (content : List Char) (name : List Char) : Option (List ℚ) :=
  (((decodeAssign content).filter (fun kv => kv.1 == name)).getLast?).map
    (fun kv => kv.2)

/-! ## Shared lemmas -/

theorem tryParam_val_ne_nil {l : List Char} {k v r : List Char}
    (h : tryParam l = some ((k, v), r)) : v ≠ [] := by
  unfold tryParam at h
  split at h
  · exact absurd h (by simp)
  · split at h
    · exact absurd h (by simp)
    · rename_i hne2 hveq
      rw [Option.some.injEq, Prod.mk.injEq] at h
      obtain ⟨h1, -⟩ := h
      rw [Prod.mk.injEq] at h1
      obtain ⟨-, h2⟩ := h1
      rw [← h2]
      exact fun hnil => hveq hnil
    · exact absurd h (by simp)
  · exact absurd h (by simp)

theorem scanParams_val_ne_nil_aux :
    ∀ (n : Nat) (l : List Char), l.length < n →
      ∀ kv ∈ scanParams l, kv.2 ≠ [] := by
  intro n
  induction n with
  | zero => intro l h; exact absurd h (by omega)
  | succ n ih =>
    intro l hlen kv hm
    rw [scanParams.eq_def] at hm
    split at hm
    · rename_i kv2 r heq
      obtain ⟨k2, v2⟩ := kv2
      rcases List.mem_cons.mp hm with h1 | h1
      · subst h1
        exact tryParam_val_ne_nil heq
      · have hr := tryParam_rest_lt heq
        exact ih r (by omega) kv h1
    · split at hm
      · exact absurd hm (by simp)
      · exact ih _ (by simp only [List.length_cons] at hlen; omega) kv hm

theorem scanParams_val_ne_nil {l : List Char} {kv : List Char × List Char}
    (hm : kv ∈ scanParams l) : kv.2 ≠ [] :=
  scanParams_val_ne_nil_aux (l.length + 1) l (by omega) kv hm

/-! ## Per-claim theorems -/

/-- The netlist of claim C1: a 5 V source from `n1` to the reference
node and a 1 kΩ resistor from `n1` to the otherwise floating `n2`. -/
def netC1 : List Char := "Vdc:V1 n1 0 U=\"5\"\nR:R1 n1 n2 R=\"1000\"".toList

/-- C1: on the spec's hand-solved circuit the pipeline is claimed to return
`x[n1] = 5` and `x[n2] = 5`.  Evaluating the embedded pipeline shows the node
map is `n1 ↦ 0`, `n2 ↦ 1` and the solution has `x[n1] = 5` but `x[n2] = 0`:
forward elimination turns row 1 (the KCL row of `n2`) into an exact zero
diagonal, the zero pivot is skipped, and back-substitution leaves `x[1] = 0`
even though the assembled system is nonsingular with true solution
`x[n2] = 5`. -/
theorem c1_hand_solved_case_evaluates_to_zero :
    (solve netC1).map (fun r => (r.1, r.2 0, r.2 1)) =
      .ok (["n1".toList, "n2".toList], 5, 0) := by
  with_unfolding_all decide

/-- C2 counterexample: a netlist whose only line is `R:R1 n1 0 R="0"`.
The claim says the core pipeline completes without raising for every
input, explicitly including `R="0"`; the code computes `1.0 / 0.0`,
which raises `ZeroDivisionError`, so the pipeline produces no output. -/
theorem c2_zero_resistance_raises :
    run "R:R1 n1 0 R=\"0\"".toList = .error .zeroDivisionError := by
  with_unfolding_all decide

/-- The netlist of the C3 counterexample: two textually identical `Vdc`
lines. -/
def netC3 : List Char := "Vdc:V1 n1 0 U=\"5\"\nVdc:V1 n1 0 U=\"5\"".toList

/-- C3 counterexample: with two identical `Vdc` lines (`N = 1`, `M = 2`),
the claim says source `k = 1` stamps auxiliary row/column `N+1 = 2` and adds
`5` to `I[2]`.  In fact `vsources.index(c)` finds the first `==`-equal
element for both instances, so both stamp auxiliary index `1`:
`G[0][1] = G[1][0] = 2` and `I[1] = 10`, while row/column `2` stay zero and
`I[2] = 0`. -/
theorem c3_identical_sources_share_auxiliary :
    (assemble (parseNetlist netC3)).map
        (fun GI => (GI.1 0 1, GI.1 1 0, GI.1 0 2, GI.1 2 0, GI.2 1, GI.2 2)) =
      .ok (2, 2, 0, 0, 10, 0) := by
  with_unfolding_all decide

/-- C4 counterexample: a circuit whose only free node is named `n-1`.
The encoder emits a well-formed `<dep n-1 sweep>` block, but the decoder's
block regex requires the name to match `\w+`, so the block is skipped and
decoding recovers no value sequence for that node (the claim promises a
sequence of length `Points` for every free node name). -/
theorem c4_nonword_node_name_lost :
    (run "R:R1 n-1 0 R=\"1000\"".toList).map
        (fun out => decodeLookup out "n-1".toList) = .ok none := by
  with_unfolding_all decide

/-- First C5 netlist: two `.DC` lines, `Start` only on the earlier one. -/
def netC5a : List Char := ".DC Start=\"3\"\n.DC Stop=\"7\"".toList

/-- Second C5 netlist: only the later `.DC` line. -/
def netC5b : List Char := ".DC Stop=\"7\"".toList

/-- C5 counterexample: `netC5a` and `netC5b` have the same last `.DC`
line (`sim_cmd`, the last line's parameter dict, is `{Stop: "7"}` for
both), so under the claim the governing directive — and hence the encoded
output — would coincide.  The outputs differ: the sweep of `netC5a`
starts at `3` (the `Start` key of the *earlier* `.DC` line), that of
`netC5b` at the default `0`, because `main` merges all `.DC` lines key
by key instead of taking the last line's set. -/
theorem c5_earlier_dc_keys_affect_output :
    (parseNetlist netC5a).simCmd = some [("Stop".toList, "7".toList)] ∧
    (parseNetlist netC5b).simCmd = some [("Stop".toList, "7".toList)] ∧
    run netC5a = .ok "<indep sweep 2>\n3.000000e+00\n7.000000e+00\n</indep>\n".toList ∧
    run netC5b = .ok "<indep sweep 2>\n0.000000e+00\n7.000000e+00\n</indep>\n".toList := by
  refine ⟨by with_unfolding_all decide, by with_unfolding_all decide,
    by with_unfolding_all decide, by with_unfolding_all decide⟩

/-- The netlist of the C7 counterexample: after elimination the first
diagonal entry is exactly `1e-12`. -/
def netC7 : List Char := "Vdc:V1 a 0 U=\"1\"\nR:R1 a b R=\"1e12\"".toList

/-- C7 counterexample: on this assembled system the post-elimination
diagonal `G'[0][0]` equals `1e-12` exactly, which is *not* below the
`1e-12` tolerance, so the claim's "otherwise" branch promises the solved
value `(I'[0] - sum)/G'[0][0] = 1`; back-substitution tests
`abs(G[i][i]) > 1e-12` strictly and instead leaves `x[0] = 0`. -/
theorem c7_boundary_pivot_not_solved :
    (assemble (parseNetlist netC7)).map (fun GI =>
      let F := forward 3 GI.1 GI.2
      let x := backward 3 F.1 F.2
      (decide (|F.1 0 0| < eps), x 0, (F.2 0 - rowSum F.1 x 0 3) / F.1 0 0)) =
      .ok (false, 0, 1) := by
  with_unfolding_all decide

/-- The netlist of claim C9: an `R` and a `Vdc` component whose value
parameters are written with empty quoted values. -/
def netC9 : List Char := "R:R1 n1 0 R=\"\"\nVdc:V1 n1 0 U=\"\"".toList

/-- C9: the parameter regex `(\w+)="([^"]+)"` never captures an empty
quoted value (first conjunct, for every line), so `R=""`/`U=""` leave the
parameter dicts empty; on `netC9` both components still have node lists
`[n1, 0]` (the `=`-containing token terminates the node list), and
assembly uses the defaults: `G[0][0] = 1/1000` (R default `1000`) and
`I[1] = 1` (U default `1`). -/
theorem c9_empty_quoted_values_not_captured :
    (∀ l kv, kv ∈ scanParams l → kv.2 ≠ []) ∧
    (parseNetlist netC9).comps =
      [⟨"R".toList, "R1".toList, ["n1".toList, "0".toList], []⟩,
       ⟨"Vdc".toList, "V1".toList, ["n1".toList, "0".toList], []⟩] ∧
    (assemble (parseNetlist netC9)).map
        (fun GI => (GI.1 0 0, GI.1 0 1, GI.1 1 0, GI.2 0, GI.2 1)) =
      .ok (1/1000, 1, 1, 0, 1) := by
  refine ⟨fun l kv hm => scanParams_val_ne_nil hm,
    by with_unfolding_all decide, by with_unfolding_all decide⟩

theorem mem_descList {n i : Nat} : i ∈ descList n ↔ i < n := by
  induction n with
  | zero => simp [descList]
  | succ n ih =>
    simp only [descList, List.mem_cons, ih]
    omega

theorem descList_sorted (n : Nat) : (descList n).Pairwise (fun a b => b < a) := by
  induction n with
  | zero => exact List.Pairwise.nil
  | succ n ih => exact List.Pairwise.cons (fun b hb => mem_descList.mp hb) ih

theorem backLoop_cons (G : Mat) (I : Vec) (size i : Nat) (rest : List Nat) (x0 : Vec) :
    backLoop G I size (i :: rest) x0 =
      backLoop G I size rest
        (if eps < |G i i| then
          (fun a => if a = i then (I i - rowSum G x0 i size) / G i i else x0 a)
         else x0) := rfl

theorem backLoop_not_mem {G : Mat} {I : Vec} {size : Nat} :
    ∀ {L : List Nat} {x0 : Vec} {z : Nat}, z ∉ L → backLoop G I size L x0 z = x0 z := by
  intro L
  induction L with
  | nil => intro x0 z _; rfl
  | cons i rest ih =>
    intro x0 z h
    have hz : z ≠ i := fun he => h (he ▸ List.mem_cons_self i rest)
    have hz2 : z ∉ rest := fun hm => h (List.mem_cons_of_mem i hm)
    rw [backLoop_cons, ih hz2]
    by_cases hc : eps < |G i i| <;> simp [hc, hz]

theorem foldl_sum_congr {G : Mat} {x y : Vec} {i : Nat} :
    ∀ (L : List Nat) (acc : ℚ), (∀ j ∈ L, x j = y j) →
      L.foldl (fun a j => a + G i j * x j) acc =
        L.foldl (fun a j => a + G i j * y j) acc := by
  intro L
  induction L with
  | nil => intro acc _; rfl
  | cons j rest ih =>
    intro acc h
    simp only [List.foldl_cons]
    rw [h j (List.mem_cons_self j rest)]
    exact ih _ (fun k hk => h k (List.mem_cons_of_mem j hk))

theorem rowSum_congr {G : Mat} {x y : Vec} {i size : Nat}
    (h : ∀ j, i < j → j < size → x j = y j) :
    rowSum G x i size = rowSum G y i size := by
  unfold rowSum
  refine foldl_sum_congr _ _ (fun j hj => ?_)
  have := List.mem_range'_1.mp hj
  exact h j (by omega) (by omega)

theorem backLoop_step_self_solve {G : Mat} {I : Vec} {size i : Nat}
    {rest : List Nat} {x0 : Vec} (hnot : i ∉ rest) (hc : eps < |G i i|) :
    backLoop G I size (i :: rest) x0 i = (I i - rowSum G x0 i size) / G i i := by
  rw [backLoop_cons, backLoop_not_mem hnot]
  simp [hc]

theorem backLoop_step_self_skip {G : Mat} {I : Vec} {size i : Nat}
    {rest : List Nat} {x0 : Vec} (hnot : i ∉ rest) (hc : ¬ eps < |G i i|) :
    backLoop G I size (i :: rest) x0 i = x0 i := by
  rw [backLoop_cons, backLoop_not_mem hnot]
  simp [hc]

theorem backLoop_step_other {G : Mat} {I : Vec} {size i j : Nat}
    {rest : List Nat} {x0 : Vec} (hj : j ∉ rest) (hji : j ≠ i) :
    backLoop G I size (i :: rest) x0 j = x0 j := by
  rw [backLoop_cons, backLoop_not_mem hj]
  by_cases hc : eps < |G i i| <;> simp [hc, hji]

theorem backLoop_spec {G : Mat} {I : Vec} {size : Nat} :
    ∀ {L : List Nat}, L.Pairwise (fun a b => b < a) →
      ∀ (x0 : Vec) {i : Nat}, i ∈ L →
        (¬ eps < |G i i| → backLoop G I size L x0 i = x0 i) ∧
        (eps < |G i i| →
          backLoop G I size L x0 i =
            (I i - rowSum G (backLoop G I size L x0) i size) / G i i) := by
  intro L
  induction L with
  | nil => intro _ x0 i h; exact absurd h (by simp)
  | cons a rest ih =>
    intro hp x0 i hi
    obtain ⟨ha, hrest⟩ := List.pairwise_cons.mp hp
    rcases List.mem_cons.mp hi with he | hmem
    · subst he
      have hnot : i ∉ rest := fun hm => absurd (ha i hm) (lt_irrefl i)
      by_cases hc : eps < |G i i|
      · refine ⟨fun h => absurd hc h, fun _ => ?_⟩
        have hsum : rowSum G x0 i size =
            rowSum G (backLoop G I size (i :: rest) x0) i size := by
          refine rowSum_congr (fun j hj _ => ?_)
          have hjr : j ∉ rest := fun hm => absurd (ha j hm) (by omega)
          rw [backLoop_step_other hjr (by omega)]
        rw [backLoop_step_self_solve hnot hc, hsum]
      · exact ⟨fun _ => backLoop_step_self_skip hnot hc, fun h => absurd h hc⟩
    · have hia : i ≠ a := fun he => absurd (ha i hmem) (he ▸ lt_irrefl a)
      have hx2 : ∀ y : Vec,
          (if eps < |G a a| then
            (fun b => if b = a then (I a - rowSum G y a size) / G a a else y b)
           else y) i = y i := by
        intro y
        by_cases hc : eps < |G a a| <;> simp [hc, hia]
      constructor
      · intro h
        rw [backLoop_cons]
        rw [(ih hrest _ hmem).1 h]
        exact hx2 x0
      · intro h
        rw [backLoop_cons]
        exact (ih hrest _ hmem).2 h

/-- C7 amended: after forward elimination, back-substitution leaves
`x[i] = 0` whenever the post-elimination diagonal satisfies
`abs(G[i][i]) ≤ 1e-12` (not merely `< 1e-12` as claimed), and assigns
the solved value `(I[i] - sum)/G[i][i]` exactly when
`abs(G[i][i]) > 1e-12` strictly; the solver is a total function, so no
singularity is ever reported as a failure. -/
theorem c7_amended_back_substitution (size : Nat) (G : Mat) (I : Vec) (i : Nat)
    (hi : i < size) :
    (|(forward size G I).1 i i| ≤ eps →
      backward size (forward size G I).1 (forward size G I).2 i = 0) ∧
    (eps < |(forward size G I).1 i i| →
      backward size (forward size G I).1 (forward size G I).2 i =
        ((forward size G I).2 i -
          rowSum (forward size G I).1
            (backward size (forward size G I).1 (forward size G I).2) i size) /
          (forward size G I).1 i i) := by
  have h := @backLoop_spec (forward size G I).1 (forward size G I).2
    size _ (descList_sorted size) (fun _ => 0) i (mem_descList.mpr hi)
  exact ⟨fun hle => h.1 (not_lt.mpr hle), h.2⟩

/-- C7 amended witness: the theorem applied to the concrete `1 × 1`
system `G = [[1]]`, `I = [3]`, whose unique unknown solves to `3`. -/
theorem c7_amended_back_substitution_witness :
    (0 : Nat) < 1 ∧
      backward 1 (forward 1 (fun _ _ => (1 : ℚ)) (fun _ => 3)).1
        (forward 1 (fun _ _ => (1 : ℚ)) (fun _ => 3)).2 0 = 3 := by
  refine ⟨by decide, ?_⟩
  have h := (c7_amended_back_substitution 1 (fun _ _ => (1 : ℚ)) (fun _ => 3) 0
    (by decide)).2 (by with_unfolding_all decide)
  rw [h]
  with_unfolding_all decide

theorem applyAdds_entry (g : Mat) (L : List (Nat × Nat × ℚ)) (i j : Nat) :
    applyAdds g L i j =
      g i j + (L.map (fun e => if i = e.1 ∧ j = e.2.1 then e.2.2 else 0)).sum := by
  induction L generalizing g with
  | nil => simp [applyAdds]
  | cons e L ih =>
    simp only [applyAdds, List.foldl_cons] at ih ⊢
    rw [ih]
    simp only [mAdd, List.map_cons, List.sum_cons]
    by_cases h : i = e.1 ∧ j = e.2.1 <;> simp [h] <;> ring

theorem rStampUpds_sum_symm (n1 n2 : Option Nat) (g : ℚ) (i j : Nat) :
    ((rStampUpds n1 n2 g).map (fun e => if i = e.1 ∧ j = e.2.1 then e.2.2 else 0)).sum =
    ((rStampUpds n1 n2 g).map (fun e => if j = e.1 ∧ i = e.2.1 then e.2.2 else 0)).sum := by
  rcases n1 with _ | a
  · rcases n2 with _ | b
    · simp [rStampUpds]
    · by_cases h1 : i = b <;> by_cases h2 : j = b <;> simp_all [rStampUpds]
  · rcases n2 with _ | b
    · by_cases h1 : i = a <;> by_cases h2 : j = a <;> simp_all [rStampUpds]
    · by_cases h1 : i = a <;> by_cases h2 : j = a <;> by_cases h3 : i = b <;>
        by_cases h4 : j = b <;> simp_all [rStampUpds] <;> ring

theorem vStampUpds_sum_symm (n1 n2 : Option Nat) (v : Nat) (i j : Nat) :
    ((vStampUpds n1 n2 v).map (fun e => if i = e.1 ∧ j = e.2.1 then e.2.2 else 0)).sum =
    ((vStampUpds n1 n2 v).map (fun e => if j = e.1 ∧ i = e.2.1 then e.2.2 else 0)).sum := by
  rcases n1 with _ | a
  · rcases n2 with _ | b
    · simp [vStampUpds]
    · by_cases h1 : i = b <;> by_cases h2 : j = b <;> by_cases h3 : i = v <;>
        by_cases h4 : j = v <;> simp_all [vStampUpds] <;> ring
  · rcases n2 with _ | b
    · by_cases h1 : i = a <;> by_cases h2 : j = a <;> by_cases h3 : i = v <;>
        by_cases h4 : j = v <;> simp_all [vStampUpds] <;> ring
    · by_cases h1 : i = a <;> by_cases h2 : j = a <;> by_cases h3 : i = b <;>
        by_cases h4 : j = b <;> by_cases h5 : i = v <;> by_cases h6 : j = v <;>
        simp_all [vStampUpds] <;> ring

theorem stampOne_symm {nl : List (List Char)} {vs : List Component} {N : Nat}
    {GI GI2 : Mat × Vec} {c : Component}
    (hs : ∀ i j, GI.1 i j = GI.1 j i)
    (h : stampOne nl vs N GI c = .ok GI2) : ∀ i j, GI2.1 i j = GI2.1 j i := by
  unfold stampOne at h
  cases hnis : resolveList nl c.nodes with
  | error e => rw [hnis] at h; exact absurd h (by simp [Bind.bind, Except.bind])
  | ok nis =>
    rw [hnis] at h
    simp only [Bind.bind, Except.bind] at h
    split at h
    · -- R component: match on toFloatExc, the zero test, then the node list
      split at h
      · exact absurd h (by simp)
      · split at h
        · exact absurd h (by simp)
        · split at h
          · rw [Except.ok.injEq] at h
            intro i j
            rw [← h]
            simp only [applyAdds_entry]
            rw [hs i j, rStampUpds_sum_symm]
          · exact absurd h (by simp)
    · split at h
      · -- Vdc component: match on findIdx?, toFloatExc, then the node list
        split at h
        · split at h
          · exact absurd h (by simp)
          · split at h
            · rw [Except.ok.injEq] at h
              intro i j
              rw [← h]
              simp only [applyAdds_entry]
              rw [hs i j, vStampUpds_sum_symm]
            · exact absurd h (by simp)
        · exact absurd h (by simp)
      · -- unknown type: no stamp
        rw [Except.ok.injEq] at h
        intro i j
        rw [← h]
        exact hs i j

theorem stampList_symm {nl : List (List Char)} {vs : List Component} {N : Nat} :
    ∀ {cs : List Component} {GI GI2 : Mat × Vec},
      (∀ i j, GI.1 i j = GI.1 j i) →
      stampList nl vs N cs GI = .ok GI2 → ∀ i j, GI2.1 i j = GI2.1 j i := by
  intro cs
  induction cs with
  | nil =>
    intro GI GI2 hs h
    rw [stampList, Except.ok.injEq] at h
    rw [← h]
    exact hs
  | cons c cs ih =>
    intro GI GI2 hs h
    rw [stampList] at h
    cases h1 : stampOne nl vs N GI c with
    | error e => rw [h1] at h; exact absurd h (by simp [Bind.bind, Except.bind])
    | ok GI1 =>
      rw [h1] at h
      simp only [Bind.bind, Except.bind] at h
      exact ih (stampOne_symm hs h1) h

/-- C6: for every netlist whose parsed components are all of type `R` or
`Vdc` with at least two node tokens, whenever assembly completes the
resulting matrix `G` is symmetric: both stamps only ever add equal
amounts at mirrored index pairs. -/
theorem c6_assembled_matrix_symmetric (txt : List Char) {G : Mat} {I : Vec}
    (hty : ∀ c ∈ (parseNetlist txt).comps,
      c.ctype = "R".toList ∨ c.ctype = "Vdc".toList)
    (hnodes : ∀ c ∈ (parseNetlist txt).comps, 2 ≤ c.nodes.length)
    (hok : assemble (parseNetlist txt) = .ok (G, I)) :
    ∀ i j, G i j = G j i := by
  have := stampList_symm (fun _ _ => rfl) hok
  exact this

/-- C6 witness: the theorem applied to the concrete C1 netlist, whose
matrix has the mirrored entries `G 0 2 = G 2 0 = 1`. -/
theorem c6_assembled_matrix_symmetric_witness :
    ∃ (G : Mat) (I : Vec),
      assemble (parseNetlist netC1) = .ok (G, I) ∧ G 0 2 = G 2 0 ∧ G 0 2 = 1 := by
  have h0 : (assemble (parseNetlist netC1)).map (fun _ => ()) = .ok () := by
    with_unfolding_all decide
  cases h : assemble (parseNetlist netC1) with
  | error e => rw [h] at h0; exact absurd h0 (by simp [Except.map])
  | ok GI =>
    have h2 : assemble (parseNetlist netC1) = .ok (GI.1, GI.2) := h
    refine ⟨GI.1, GI.2, rfl, ?_, ?_⟩
    · exact c6_assembled_matrix_symmetric netC1
        (by with_unfolding_all decide) (by with_unfolding_all decide) h2 0 2
    · have h3 : (assemble (parseNetlist netC1)).map (fun GI => GI.1 0 2) = .ok 1 := by
        with_unfolding_all decide
      rw [h] at h3
      simpa [Except.map] using h3

/-- The `.DC` lines of a netlist, in order: those whose stripped text
starts with `.DC` (the test `main` applies per line). -/
def dcLines (txt : List Char) : List (List Char) :=
  (splitOnChar '\n' txt).filter (fun line => ".DC".toList.isPrefixOf (pyStrip line))

theorem pyFind_append (a b : List (List Char × List Char)) (k : List Char) :
    pyFind (a ++ b) k =
      match pyFind b k with
      | some v => some v
      | none => pyFind a k := by
  unfold pyFind
  rw [List.filter_append, List.getLast?_append]
  cases hb : (b.filter (fun kv => kv.1 == k)).getLast? with
  | none => simp [hb, Option.or]
  | some kv => simp [hb, Option.or]

theorem simParamsOf_flatten (txt : List Char) :
    simParamsOf txt = ((dcLines txt).map scanParams).flatten := by
  unfold simParamsOf dcLines
  generalize splitOnChar '\n' txt = lines
  suffices h : ∀ (acc : List (List Char × List Char)),
      lines.foldl
        (fun acc line =>
          if ".DC".toList.isPrefixOf (pyStrip line) then acc ++ scanParams line
          else acc) acc =
      acc ++ ((lines.filter (fun line => ".DC".toList.isPrefixOf (pyStrip line))).map
        scanParams).flatten by
    simpa using h []
  induction lines with
  | nil => intro acc; simp
  | cons l rest ih =>
    intro acc
    simp only [List.foldl_cons, List.filter_cons]
    by_cases hl : ".DC".toList.isPrefixOf (pyStrip l)
    · simp only [hl, if_true, ih, List.map_cons, List.flatten_cons, List.append_assoc]
    · simp only [hl, if_false, ih]
      simp [hl]

theorem findSome?_append {α β : Type} (f : α → Option β) :
    ∀ (l1 l2 : List α),
      (l1 ++ l2).findSome? f =
        match l1.findSome? f with
        | some v => some v
        | none => l2.findSome? f := by
  intro l1
  induction l1 with
  | nil => intro l2; simp [List.findSome?]
  | cons a rest ih =>
    intro l2
    simp only [List.cons_append, List.findSome?]
    cases f a with
    | none => simp [ih]
    | some v => simp

/-- C5 amended: the sweep-parameter dict `main` builds and uses is the
key-by-key merge of all `.DC` lines: the value of each key is its value
in the *last* `.DC` line that assigns it, so keys appearing only on
earlier `.DC` lines keep their effect unless overridden. -/
theorem c5_amended_per_key_last_wins (txt key : List Char) :
    pyFind (simParamsOf txt) key =
      (dcLines txt).reverse.findSome? (fun line => pyFind (scanParams line) key) := by
  rw [simParamsOf_flatten]
  generalize dcLines txt = L
  induction L with
  | nil => simp [pyFind, List.findSome?]
  | cons l rest ih =>
    simp only [List.map_cons, List.flatten_cons, List.reverse_cons]
    rw [pyFind_append (scanParams l) (List.map scanParams rest).flatten key, ih,
      findSome?_append]
    cases rest.reverse.findSome? (fun line => pyFind (scanParams line) key) with
    | none =>
      cases hfl : pyFind (scanParams l) key <;> simp [List.findSome?, hfl]
    | some v => rfl

theorem parseFold_nodes_sub :
    ∀ (lines : List (List Char)) (st : ParseOut),
      (∀ c ∈ st.comps, ∀ t ∈ c.nodes, t ∈ st.nodeTokens) →
      ∀ c ∈ (lines.foldl parseStep st).comps, ∀ t ∈ c.nodes,
        t ∈ (lines.foldl parseStep st).nodeTokens := by
  intro lines
  induction lines with
  | nil => intro st h; exact h
  | cons l rest ih =>
    intro st h
    simp only [List.foldl_cons]
    refine ih _ ?_
    unfold parseStep
    cases parseLine l with
    | skip => exact h
    | dc ps => exact h
    | comp c =>
      intro c2 hc2 t ht
      simp only [List.mem_append] at hc2 ⊢
      rcases hc2 with h1 | h1
      · exact Or.inl (h c2 h1 t ht)
      · simp only [List.mem_singleton] at h1
        subst h1
        exact Or.inr ht

theorem parseNetlist_nodes_sub (txt : List Char) :
    ∀ c ∈ (parseNetlist txt).comps, ∀ t ∈ c.nodes,
      t ∈ (parseNetlist txt).nodeTokens :=
  parseFold_nodes_sub _ _ (by intro c hc; exact absurd hc (by simp))

theorem mem_nodeListOf {tokens : List (List Char)} {t : List Char}
    (ht : t ∈ tokens) (h0 : t ≠ "0".toList) (hg : t ≠ "gnd".toList) :
    t ∈ nodeListOf tokens := by
  unfold nodeListOf
  refine (List.mem_erase_of_ne hg).mpr ((List.mem_erase_of_ne h0).mpr ?_)
  exact (List.perm_insertionSort _ tokens.dedup).mem_iff.mpr (List.mem_dedup.mpr ht)

theorem findIdx?_isSome_of_mem {α : Type} {p : α → Bool} :
    ∀ {l : List α} {i : Nat}, (∃ x ∈ l, p x = true) →
      (List.findIdx? p l i).isSome = true := by
  intro l
  induction l with
  | nil => intro i h; obtain ⟨x, hx, -⟩ := h; exact absurd hx (by simp)
  | cons a rest ih =>
    intro i h
    rw [List.findIdx?_cons]
    by_cases hp : p a
    · simp [hp]
    · rw [if_neg hp]
      obtain ⟨x, hx, hpx⟩ := h
      rcases List.mem_cons.mp hx with he | hmem
      · subst he; exact absurd hpx hp
      · exact ih ⟨x, hmem, hpx⟩

theorem resolveNode_ok_of_mem {nl : List (List Char)} {t : List Char}
    (h : t = "0".toList ∨ t = "gnd".toList ∨ t ∈ nl) :
    ∃ v, resolveNode nl t = .ok v := by
  unfold resolveNode
  rcases h with h | h | h
  · exact ⟨none, by simp [h]⟩
  · exact ⟨none, by simp [h]⟩
  · by_cases href : t = "0".toList ∨ t = "gnd".toList
    · rcases href with h2 | h2 <;> exact ⟨none, by simp [h2]⟩
    · push_neg at href
      have hsome : (nl.findIdx? (fun m => m == t)).isSome = true :=
        findIdx?_isSome_of_mem ⟨t, h, by simp⟩
      cases hf : nl.findIdx? (fun m => m == t) with
      | none => rw [hf] at hsome; exact absurd hsome (by simp)
      | some i =>
        refine ⟨some i, ?_⟩
        have hcond : ¬((t = "0".toList || t = "gnd".toList) = true) := by
          simp only [Bool.or_eq_true, decide_eq_true_eq]
          push_neg
          exact ⟨href.1, href.2⟩
        rw [if_neg hcond]

theorem resolveList_ok {nl : List (List Char)} :
    ∀ {ns : List (List Char)}, (∀ t ∈ ns, ∃ v, resolveNode nl t = .ok v) →
      ∃ nis, resolveList nl ns = .ok nis ∧ nis.length = ns.length := by
  intro ns
  induction ns with
  | nil => intro _; exact ⟨[], rfl, rfl⟩
  | cons n rest ih =>
    intro h
    obtain ⟨v, hv⟩ := h n (List.mem_cons_self n rest)
    obtain ⟨nis, hnis, hlen⟩ := ih (fun t ht => h t (List.mem_cons_of_mem n ht))
    refine ⟨v :: nis, ?_, by simp [hlen]⟩
    rw [resolveList, hv]
    simp only [Bind.bind, Except.bind, hnis]

theorem pyCompEq_refl (c : Component) : pyCompEq c c = true := by
  unfold pyCompEq pyDictEq
  simp

theorem stampOne_ok {nl : List (List Char)} {vs : List Component} {N : Nat}
    {GI : Mat × Vec} {c : Component}
    (hres : ∀ t ∈ c.nodes, ∃ v, resolveNode nl t = .ok v)
    (hR : c.ctype = "R".toList →
      2 ≤ c.nodes.length ∧
      (pyFloat (pyGet c.params "R".toList "1000".toList)).isSome ∧
      pyFloat (pyGet c.params "R".toList "1000".toList) ≠ some 0)
    (hV : c.ctype = "Vdc".toList →
      2 ≤ c.nodes.length ∧
      (pyFloat (pyGet c.params "U".toList "1".toList)).isSome ∧
      (vs.findIdx? (fun v => pyCompEq v c)).isSome) :
    ∃ GI2, stampOne nl vs N GI c = .ok GI2 := by
  obtain ⟨nis, hnis, hlen⟩ := resolveList_ok hres
  unfold stampOne
  rw [hnis]
  simp only [Bind.bind, Except.bind]
  by_cases hcR : c.ctype = "R".toList
  · rw [if_pos hcR]
    obtain ⟨hn2, hsome, hnz⟩ := hR hcR
    cases hv : pyFloat (pyGet c.params "R".toList "1000".toList) with
    | none => rw [hv] at hsome; exact absurd hsome (by simp)
    | some v =>
      have hv0 : ¬ v = 0 := fun he => hnz (by rw [hv, he])
      simp only [toFloatExc, hv]
      rw [if_neg hv0]
      cases nis with
      | nil => simp only [List.length_nil] at hlen; omega
      | cons n1 rest =>
        cases rest with
        | nil => simp only [List.length_cons, List.length_nil] at hlen; omega
        | cons n2 tail => exact ⟨_, rfl⟩
  · rw [if_neg hcR]
    by_cases hcV : c.ctype = "Vdc".toList
    · rw [if_pos hcV]
      obtain ⟨hn2, hsome, hidx⟩ := hV hcV
      cases hf : vs.findIdx? (fun v => pyCompEq v c) with
      | none => rw [hf] at hidx; exact absurd hidx (by simp)
      | some k =>
        cases hv : pyFloat (pyGet c.params "U".toList "1".toList) with
        | none => rw [hv] at hsome; exact absurd hsome (by simp)
        | some v =>
          simp only [toFloatExc, hv]
          cases nis with
          | nil => simp only [List.length_nil] at hlen; omega
          | cons n1 rest =>
            cases rest with
            | nil => simp only [List.length_cons, List.length_nil] at hlen; omega
            | cons n2 tail => exact ⟨_, rfl⟩
    · rw [if_neg hcV]
      exact ⟨GI, rfl⟩

theorem stampList_ok {nl : List (List Char)} {vs : List Component} {N : Nat} :
    ∀ {cs : List Component} {GI : Mat × Vec},
      (∀ c ∈ cs,
        (∀ t ∈ c.nodes, ∃ v, resolveNode nl t = .ok v) ∧
        (c.ctype = "R".toList →
          2 ≤ c.nodes.length ∧
          (pyFloat (pyGet c.params "R".toList "1000".toList)).isSome ∧
          pyFloat (pyGet c.params "R".toList "1000".toList) ≠ some 0) ∧
        (c.ctype = "Vdc".toList →
          2 ≤ c.nodes.length ∧
          (pyFloat (pyGet c.params "U".toList "1".toList)).isSome ∧
          (vs.findIdx? (fun v => pyCompEq v c)).isSome)) →
      ∃ GI2, stampList nl vs N cs GI = .ok GI2 := by
  intro cs
  induction cs with
  | nil => intro GI _; exact ⟨GI, rfl⟩
  | cons c rest ih =>
    intro GI h
    obtain ⟨h1, h2, h3⟩ := h c (List.mem_cons_self c rest)
    obtain ⟨GI1, hGI1⟩ := stampOne_ok h1 h2 h3
    obtain ⟨GI2, hGI2⟩ := @ih GI1 (fun d hd => h d (List.mem_cons_of_mem c hd))
    refine ⟨GI2, ?_⟩
    rw [stampList, hGI1]
    simpa only [Bind.bind, Except.bind] using hGI2

/-- C2 amended: the pipeline completes and produces a textual result
whenever each `R` component has at least two node tokens and a parseable
nonzero `R` value, each `Vdc` component has at least two node tokens and
a parseable `U` value, and the sweep's `Start`/`Stop`/`Points` values
parse.  (Without those conditions it raises: `ZeroDivisionError` on
`R="0"`, `IndexError` on missing node tokens, `ValueError` on
non-numeric values — see the counterexample.) -/
theorem c2_amended_total_under_conditions (txt : List Char)
    (hcomp : ∀ c ∈ (parseNetlist txt).comps,
      (c.ctype = "R".toList →
        2 ≤ c.nodes.length ∧
        (pyFloat (pyGet c.params "R".toList "1000".toList)).isSome ∧
        pyFloat (pyGet c.params "R".toList "1000".toList) ≠ some 0) ∧
      (c.ctype = "Vdc".toList →
        2 ≤ c.nodes.length ∧
        (pyFloat (pyGet c.params "U".toList "1".toList)).isSome))
    (hstart : (pyFloat (pyGet (simParamsOf txt) "Start".toList "0".toList)).isSome)
    (hstop : (pyFloat (pyGet (simParamsOf txt) "Stop".toList "10".toList)).isSome)
    (hpoints : (pyInt (pyGet (simParamsOf txt) "Points".toList "2".toList)).isSome) :
    ∃ out, run txt = .ok out := by
  have hall : ∀ c ∈ (parseNetlist txt).comps,
      (∀ t ∈ c.nodes, ∃ v,
        resolveNode (nodeListOf (parseNetlist txt).nodeTokens) t = .ok v) ∧
      (c.ctype = "R".toList →
        2 ≤ c.nodes.length ∧
        (pyFloat (pyGet c.params "R".toList "1000".toList)).isSome ∧
        pyFloat (pyGet c.params "R".toList "1000".toList) ≠ some 0) ∧
      (c.ctype = "Vdc".toList →
        2 ≤ c.nodes.length ∧
        (pyFloat (pyGet c.params "U".toList "1".toList)).isSome ∧
        ((vsourcesOf (parseNetlist txt).comps).findIdx?
          (fun v => pyCompEq v c)).isSome) := by
    intro c hc
    refine ⟨?_, (hcomp c hc).1, ?_⟩
    · intro t ht
      apply resolveNode_ok_of_mem
      by_cases h0 : t = "0".toList
      · exact Or.inl h0
      · by_cases hg : t = "gnd".toList
        · exact Or.inr (Or.inl hg)
        · refine Or.inr (Or.inr ?_)
          exact mem_nodeListOf (parseNetlist_nodes_sub txt c hc t ht) h0 hg
    · intro hcV
      obtain ⟨hn2, hsome⟩ := (hcomp c hc).2 hcV
      refine ⟨hn2, hsome, ?_⟩
      apply findIdx?_isSome_of_mem
      refine ⟨c, ?_, pyCompEq_refl c⟩
      unfold vsourcesOf
      rw [List.mem_filter]
      exact ⟨hc, by simp [hcV]⟩
  obtain ⟨GI, hGI⟩ := stampList_ok hall
  have hsolve : solve txt = .ok
      (nodeListOf (parseNetlist txt).nodeTokens,
       solveLin ((nodeListOf (parseNetlist txt).nodeTokens).length +
          (vsourcesOf (parseNetlist txt).comps).length) GI.1 GI.2) := by
    simp only [solve, Bind.bind, Except.bind]
    rw [hGI]
  have henc : ∃ bs, encodeBlocks txt (nodeListOf (parseNetlist txt).nodeTokens)
      (solveLin ((nodeListOf (parseNetlist txt).nodeTokens).length +
        (vsourcesOf (parseNetlist txt).comps).length) GI.1 GI.2) = .ok bs := by
    unfold encodeBlocks
    cases h1 : pyFloat (pyGet (simParamsOf txt) "Start".toList "0".toList) with
    | none => rw [h1] at hstart; exact absurd hstart (by simp)
    | some start =>
      cases h2 : pyFloat (pyGet (simParamsOf txt) "Stop".toList "10".toList) with
      | none => rw [h2] at hstop; exact absurd hstop (by simp)
      | some stop =>
        cases h3 : pyInt (pyGet (simParamsOf txt) "Points".toList "2".toList) with
        | none => rw [h3] at hpoints; exact absurd hpoints (by simp)
        | some points =>
          simp only [toFloatExc, h1, h2, h3, Bind.bind, Except.bind]
          exact ⟨_, rfl⟩
  obtain ⟨bs, hbs⟩ := henc
  refine ⟨renderBlocks bs, ?_⟩
  unfold run
  rw [hsolve]
  simp only [Bind.bind, Except.bind]
  rw [hbs]

/-- C2 amended witness: the theorem applied to the concrete C1 netlist,
whose components satisfy all the conditions. -/
theorem c2_amended_total_under_conditions_witness :
    ∃ out, run netC1 = .ok out :=
  c2_amended_total_under_conditions netC1
    (by with_unfolding_all decide)
    (by with_unfolding_all decide)
    (by with_unfolding_all decide)
    (by with_unfolding_all decide)

/-- C8: for a sweep with integer `Points ≥ 1`, the encoder emits exactly
one `indep` block, tagged with the sweep parameter name, holding
`Points` linearly spaced values from `Start` with step
`(Stop-Start)/(Points-1)` (step 0 and all values `Start` when
`Points = 1`, last value exactly `Stop` when `Points ≥ 2`), followed by
one `dep` block per free node in node-map order, each holding the single
solved value `x[nodeIndex]` repeated `Points` times. -/
theorem c8_encoder_block_shape (txt : List Char) (nl : List (List Char)) (x : Vec)
    {bs : List Blk} {start stop : ℚ} {p : ℤ}
    (henc : encodeBlocks txt nl x = .ok bs)
    (hstart : pyFloat (pyGet (simParamsOf txt) "Start".toList "0".toList) = some start)
    (hstop : pyFloat (pyGet (simParamsOf txt) "Stop".toList "10".toList) = some stop)
    (hp : pyInt (pyGet (simParamsOf txt) "Points".toList "2".toList) = some p)
    (hp1 : 1 ≤ p) :
    (bs.filter (fun b => b.kind == BKind.indep)).length = 1 ∧
    bs.length = nl.length + 1 ∧
    (∃ ivals : List ℚ,
      bs.head? = some ⟨.indep, pyGet (simParamsOf txt) "Param".toList "sweep".toList,
        renderInt p, valBody ivals⟩ ∧
      ivals.length = p.toNat ∧
      (∀ m : Nat, m < p.toNat → ivals[m]? =
        some (start + (m : ℚ) *
          (if 1 < p then (stop - start) / ((p : ℚ) - 1) else 0))) ∧
      ivals.head? = some start ∧
      (2 ≤ p → ivals[p.toNat - 1]? = some stop) ∧
      (p = 1 → ivals = [start])) ∧
    (∀ (m : Nat) (hm : m < nl.length),
      bs[m + 1]? = some ⟨.dep, nl[m],
        pyGet (simParamsOf txt) "Param".toList "sweep".toList,
        valBody (List.replicate p.toNat (x m))⟩) := by
  simp only [encodeBlocks, toFloatExc, hstart, hstop, hp, Bind.bind, Except.bind,
    Except.ok.injEq] at henc
  subst henc
  have hpt : 1 ≤ p.toNat := by omega
  refine ⟨?_, ?_, ?_, ?_⟩
  · simp only [List.filter_cons]
    have hdeps : ((nl.enum.map (fun q =>
        (⟨.dep, q.2, pyGet (simParamsOf txt) "Param".toList "sweep".toList,
          valBody (List.replicate p.toNat (x q.1))⟩ : Blk))).filter
          (fun b => b.kind == BKind.indep)) = [] := by
      rw [List.filter_eq_nil_iff]
      intro b hb
      obtain ⟨q, -, hq⟩ := List.mem_map.mp hb
      rw [← hq]
      simp
    rw [if_pos (show (BKind.indep == BKind.indep) = true from rfl), hdeps]
    rfl
  · simp [List.enum_length]
  · refine ⟨_, rfl, by rw [List.length_map, List.length_range], ?_, ?_, ?_, ?_⟩
    · intro m hm
      rw [List.getElem?_map, List.getElem?_range hm]
      rfl
    · rw [List.head?_map]
      cases hn : List.range p.toNat with
      | nil => rw [List.range_eq_nil] at hn; omega
      | cons a rest =>
        have : a = 0 := by
          have := List.range_succ_eq_map (p.toNat - 1)
          rw [show p.toNat - 1 + 1 = p.toNat by omega] at this
          rw [this] at hn
          exact (List.cons.injEq _ _ _ _ ▸ hn).1.symm
        subst this
        simp
    · intro h2
      have hlt : p.toNat - 1 < p.toNat := by omega
      rw [List.getElem?_map, List.getElem?_range hlt]
      have h1p : (1 : ℤ) < p := by omega
      have hcast : ((p.toNat - 1 : Nat) : ℚ) = (p : ℚ) - 1 := by
        have hp0 : (0 : ℤ) ≤ p := by omega
        rw [Nat.cast_sub hpt, Nat.cast_one]
        congr 1
        rw [← Int.cast_natCast (R := ℚ), Int.toNat_of_nonneg hp0]
      have hne : (p : ℚ) - 1 ≠ 0 := by
        have h2c : (1 : ℚ) < (p : ℚ) := by exact_mod_cast h1p
        intro he
        have : (p : ℚ) = 1 := by linarith
        linarith
      simp only [if_pos h1p, Option.map_some', Option.some.injEq]
      rw [hcast]
      field_simp
    · intro h1
      subst h1
      norm_num [List.range_succ]
  · intro m hm
    rw [List.getElem?_cons_succ, List.getElem?_map, List.getElem?_enum,
      List.getElem?_eq_getElem hm]
    rfl

/-- C8 witness: the theorem applied to the empty netlist (all sweep
defaults: `Start=0`, `Stop=10`, `Points=2`) with one free node. -/
theorem c8_encoder_block_shape_witness :
    ∃ bs, encodeBlocks [] ["a".toList] (fun _ => 5) = .ok bs ∧
      (bs.filter (fun b => b.kind == BKind.indep)).length = 1 ∧
      bs.length = 2 := by
  have h0 : (encodeBlocks [] ["a".toList] (fun _ => 5)).map (fun _ => ()) = .ok () := by
    with_unfolding_all decide
  cases h : encodeBlocks [] ["a".toList] (fun _ => 5) with
  | error e => rw [h] at h0; exact absurd h0 (by simp [Except.map])
  | ok bs =>
    have hth := @c8_encoder_block_shape [] ["a".toList] (fun _ => 5) bs 0 10 2 h
      (by with_unfolding_all decide) (by with_unfolding_all decide)
      (by with_unfolding_all decide) (by decide)
    exact ⟨bs, rfl, hth.1, hth.2.1⟩

/-! ### Decoder lemmas: scanning the rendered block structure -/

theorem takeWhile_append_all {p : Char → Bool} :
    ∀ {ds rest : List Char}, (∀ c ∈ ds, p c = true) →
      (ds ++ rest).takeWhile p = ds ++ rest.takeWhile p := by
  intro ds
  induction ds with
  | nil => intro rest _; rfl
  | cons c cs ih =>
    intro rest h
    rw [List.cons_append, List.takeWhile_cons_of_pos (h c (List.mem_cons_self c cs)),
      ih (fun d hd => h d (List.mem_cons_of_mem c hd)), List.cons_append]

theorem dropWhile_append_all {p : Char → Bool} :
    ∀ {ds rest : List Char}, (∀ c ∈ ds, p c = true) →
      (ds ++ rest).dropWhile p = rest.dropWhile p := by
  intro ds
  induction ds with
  | nil => intro rest _; rfl
  | cons c cs ih =>
    intro rest h
    rw [List.cons_append, List.dropWhile_cons_of_pos (h c (List.mem_cons_self c cs)),
      ih (fun d hd => h d (List.mem_cons_of_mem c hd))]

theorem takeWhile_eq_self_of_all {p : Char → Bool} {l : List Char}
    (h : ∀ c ∈ l, p c = true) : l.takeWhile p = l := by
  have := @takeWhile_append_all p l [] h
  simpa using this

theorem dropWhile_eq_nil_of_all {p : Char → Bool} {l : List Char}
    (h : ∀ c ∈ l, p c = true) : l.dropWhile p = [] := by
  have := @dropWhile_append_all p l [] h
  simpa using this

theorem dropWhile_eq_self_of_all_false {p : Char → Bool} {l : List Char}
    (h : ∀ c ∈ l, p c = false) : l.dropWhile p = l := by
  cases l with
  | nil => rfl
  | cons c cs =>
    rw [List.dropWhile_cons_of_neg]
    rw [h c (List.mem_cons_self c cs)]
    exact Bool.false_ne_true

theorem word_not_space {c : Char} (h : isWordChar c = true) : isPySpace c = false := by
  by_contra hsp
  rw [Bool.not_eq_false] at hsp
  unfold isPySpace at hsp
  simp only [Bool.or_eq_true, decide_eq_true_eq] at hsp
  rcases hsp with ((((h1 | h1) | h1) | h1) | h1) | h1 <;> subst h1 <;>
    exact absurd h (by decide)

/-- A nonempty run of word characters. -/
def WfWord (w : List Char) : Prop := w ≠ [] ∧ ∀ c ∈ w, isWordChar c = true

/-- A block whose tags the block regex can match and whose body contains
no `<` (so the close-tag search stops at the block's own close tag). -/
def WfBlk (b : Blk) : Prop :=
  WfWord b.bname ∧ WfWord b.btyp ∧ ∀ c ∈ b.body, c ≠ '<'

theorem tryBlock_not_lt {c : Char} {l : List Char} (h : c ≠ '<') :
    tryBlock (c :: l) = none := by
  unfold tryBlock
  split
  · rename_i r0 heq
    rw [List.cons.injEq] at heq
    exact absurd heq.1 h
  · rfl

theorem scanBlocks_eq_some {l nm data rest : List Char}
    (h : tryBlock l = some (nm, data, rest)) :
    scanBlocks l = (nm, data) :: scanBlocks rest := by
  rw [scanBlocks.eq_def]
  split
  · rename_i nm2 data2 rest2 heq
    rw [h, Option.some.injEq, Prod.mk.injEq] at heq
    obtain ⟨h1, heq2⟩ := heq
    rw [Prod.mk.injEq] at heq2
    obtain ⟨h2, h3⟩ := heq2
    rw [h1, h2, h3]
  · rename_i heq
    rw [h] at heq
    exact absurd heq (by simp)

theorem scanBlocks_skip {c : Char} {l : List Char} (h : tryBlock (c :: l) = none) :
    scanBlocks (c :: l) = scanBlocks l := by
  rw [scanBlocks.eq_def]
  split
  · rename_i nm2 data2 rest2 heq
    rw [h] at heq
    exact absurd heq (by simp)
  · rfl

theorem tryBlock_nil : tryBlock [] = none := rfl

theorem scanBlocks_nil : scanBlocks [] = [] := by
  rw [scanBlocks.eq_def]
  split
  · rename_i nm2 data2 rest2 heq
    rw [tryBlock_nil] at heq
    exact absurd heq (by simp)
  · rfl

theorem takeKind_render (k : BKind) (S : List Char) :
    takeKind (kindChars k ++ S) = some (k, S) := by
  cases k <;> simp [takeKind, kindChars, List.isPrefixOf]

theorem splitAtFirst_exact {tag : List Char} (htag : tag.head? = some '<') :
    ∀ {body rest2 : List Char}, (∀ c ∈ body, c ≠ '<') →
      splitAtFirst tag (body ++ tag ++ rest2) = some (body, rest2) := by
  intro body
  induction body with
  | nil =>
    intro rest2 _
    rw [List.nil_append]
    cases tag with
    | nil => exact absurd htag (by simp)
    | cons t ts =>
      rw [List.cons_append]
      simp only [splitAtFirst]
      rw [if_pos (by
        rw [← List.cons_append]
        exact List.isPrefixOf_iff_prefix.mpr (List.prefix_append _ _))]
      rw [Option.some.injEq, Prod.mk.injEq]
      refine ⟨rfl, ?_⟩
      rw [← List.cons_append]
      exact List.drop_left _ _
  | cons c body ih =>
    intro rest2 h
    have hc : c ≠ '<' := h c (List.mem_cons_self c body)
    rw [List.cons_append, List.cons_append]
    simp only [splitAtFirst]
    have hpre : ¬ tag.isPrefixOf (c :: (body ++ tag ++ rest2)) = true := by
      cases tag with
      | nil => exact absurd htag (by simp)
      | cons t ts =>
        have ht : t = '<' := by
          rw [List.head?_cons, Option.some.injEq] at htag
          exact htag
        subst ht
        intro hp
        rw [List.isPrefixOf, Bool.and_eq_true] at hp
        have h2 := hp.1
        rw [beq_iff_eq] at h2
        exact hc h2.symm
    rw [if_neg hpre]
    rw [ih (fun d hd => h d (List.mem_cons_of_mem c hd))]

theorem renderBlk_append (b : Blk) (rest : List Char) :
    renderBlk b ++ rest =
      '<' :: (kindChars b.kind ++ (' ' :: (b.bname ++ (' ' :: (b.btyp ++
        ('>' :: (b.body ++ ('<' :: ('/' :: (kindChars b.kind ++
          ('>' :: ('\n' :: rest)))))))))))) := by
  simp [renderBlk, List.append_assoc]

theorem takeWhile_word_run {w T : List Char} (hw : WfWord w) :
    (w ++ T).takeWhile isWordChar = w ++ T.takeWhile isWordChar :=
  takeWhile_append_all hw.2

theorem dropWhile_word_run {w T : List Char} (hw : WfWord w) :
    (w ++ T).dropWhile isWordChar = T.dropWhile isWordChar :=
  dropWhile_append_all hw.2

theorem takeWhile_space_at_word {w T : List Char} (hw : WfWord w) :
    (w ++ T).takeWhile isPySpace = [] := by
  cases w with
  | nil => exact absurd rfl hw.1
  | cons c cs =>
    rw [List.cons_append, List.takeWhile_cons_of_neg]
    rw [word_not_space (hw.2 c (List.mem_cons_self c cs))]
    exact Bool.false_ne_true

theorem dropWhile_space_at_word {w T : List Char} (hw : WfWord w) :
    (w ++ T).dropWhile isPySpace = w ++ T := by
  cases w with
  | nil => exact absurd rfl hw.1
  | cons c cs =>
    rw [List.cons_append, List.dropWhile_cons_of_neg]
    rw [word_not_space (hw.2 c (List.mem_cons_self c cs))]
    exact Bool.false_ne_true

/-- A well-formed rendered block, followed by anything, matches the block
regex at position 0: the match captures the block's name and body and
consumes through the close tag, leaving the rendered trailing newline. -/
theorem tryBlock_render {b : Blk} (hb : WfBlk b) (rest : List Char) :
    tryBlock (renderBlk b ++ rest) = some (b.bname, b.body, '\n' :: rest) := by
  obtain ⟨hnm, hty, hbody⟩ := hb
  rw [renderBlk_append]
  simp only [tryBlock, takeKind_render]
  have e1 : List.takeWhile isPySpace
      (' ' :: (b.bname ++ (' ' :: (b.btyp ++ ('>' :: (b.body ++ ('<' :: ('/' ::
        (kindChars b.kind ++ ('>' :: ('\n' :: rest))))))))))) = [' '] := by
    rw [List.takeWhile_cons_of_pos (by decide), takeWhile_space_at_word hnm]
  have e2 : List.dropWhile isPySpace
      (' ' :: (b.bname ++ (' ' :: (b.btyp ++ ('>' :: (b.body ++ ('<' :: ('/' ::
        (kindChars b.kind ++ ('>' :: ('\n' :: rest))))))))))) =
      b.bname ++ (' ' :: (b.btyp ++ ('>' :: (b.body ++ ('<' :: ('/' ::
        (kindChars b.kind ++ ('>' :: ('\n' :: rest))))))))) := by
    rw [List.dropWhile_cons_of_pos (by decide), dropWhile_space_at_word hnm]
  rw [e1, e2]
  have e3 : List.takeWhile isWordChar
      (b.bname ++ (' ' :: (b.btyp ++ ('>' :: (b.body ++ ('<' :: ('/' ::
        (kindChars b.kind ++ ('>' :: ('\n' :: rest)))))))))) = b.bname := by
    rw [takeWhile_word_run hnm, List.takeWhile_cons_of_neg (by decide),
      List.append_nil]
  have e4 : List.dropWhile isWordChar
      (b.bname ++ (' ' :: (b.btyp ++ ('>' :: (b.body ++ ('<' :: ('/' ::
        (kindChars b.kind ++ ('>' :: ('\n' :: rest)))))))))) =
      ' ' :: (b.btyp ++ ('>' :: (b.body ++ ('<' :: ('/' ::
        (kindChars b.kind ++ ('>' :: ('\n' :: rest)))))))) := by
    rw [dropWhile_word_run hnm, List.dropWhile_cons_of_neg (by decide)]
  rw [e3, e4]
  have e5 : List.takeWhile isPySpace
      (' ' :: (b.btyp ++ ('>' :: (b.body ++ ('<' :: ('/' ::
        (kindChars b.kind ++ ('>' :: ('\n' :: rest))))))))) = [' '] := by
    rw [List.takeWhile_cons_of_pos (by decide), takeWhile_space_at_word hty]
  have e6 : List.dropWhile isPySpace
      (' ' :: (b.btyp ++ ('>' :: (b.body ++ ('<' :: ('/' ::
        (kindChars b.kind ++ ('>' :: ('\n' :: rest))))))))) =
      b.btyp ++ ('>' :: (b.body ++ ('<' :: ('/' ::
        (kindChars b.kind ++ ('>' :: ('\n' :: rest))))))) := by
    rw [List.dropWhile_cons_of_pos (by decide), dropWhile_space_at_word hty]
  rw [e5, e6]
  have e7 : List.takeWhile isWordChar
      (b.btyp ++ ('>' :: (b.body ++ ('<' :: ('/' ::
        (kindChars b.kind ++ ('>' :: ('\n' :: rest)))))))) = b.btyp := by
    rw [takeWhile_word_run hty, List.takeWhile_cons_of_neg (by decide),
      List.append_nil]
  have e8 : List.dropWhile isWordChar
      (b.btyp ++ ('>' :: (b.body ++ ('<' :: ('/' ::
        (kindChars b.kind ++ ('>' :: ('\n' :: rest)))))))) =
      '>' :: (b.body ++ ('<' :: ('/' ::
        (kindChars b.kind ++ ('>' :: ('\n' :: rest)))))) := by
    rw [dropWhile_word_run hty, List.dropWhile_cons_of_neg (by decide)]
  rw [e7, e8]
  rw [if_neg (by
    simp only [not_or]
    exact ⟨by simp, hnm.1, by simp, hty.1⟩)]
  have e9 : b.body ++ ('<' :: ('/' :: (kindChars b.kind ++ ('>' :: ('\n' :: rest))))) =
      (b.body ++ ('<' :: ('/' :: (kindChars b.kind ++ ['>'])))) ++ ('\n' :: rest) := by
    simp [List.append_assoc]
  rw [e9]
  have hsp := @splitAtFirst_exact ('<' :: ('/' :: (kindChars b.kind ++ ['>']))) (by simp)
      b.body ('\n' :: rest) hbody
  simp only [hsp]

/-- C9 witness: the theorem's first conjunct applied at a concrete line
and match. -/
theorem c9_empty_quoted_values_not_captured_witness :
    ("R".toList, "x".toList) ∈ scanParams "R=\"x\"".toList ∧
      ("R".toList, "x".toList).2 ≠ [] :=
  ⟨by with_unfolding_all decide,
   c9_empty_quoted_values_not_captured.1 "R=\"x\"".toList _
     (by with_unfolding_all decide)⟩

theorem scanBlocks_render : ∀ {bs : List Blk}, (∀ b ∈ bs, WfBlk b) →
    scanBlocks (renderBlocks bs) = bs.map (fun b => (b.bname, b.body)) := by
  intro bs
  induction bs with
  | nil =>
    intro _
    simp only [renderBlocks, List.map_nil, List.flatten_nil]
    exact scanBlocks_nil
  | cons b bs ih =>
    intro h
    have hb : WfBlk b := h b (List.mem_cons_self b bs)
    have hrest : ∀ b2 ∈ bs, WfBlk b2 := fun b2 hm => h b2 (List.mem_cons_of_mem b hm)
    have e1 : renderBlocks (b :: bs) = renderBlk b ++ renderBlocks bs := by
      simp [renderBlocks]
    rw [e1, scanBlocks_eq_some (tryBlock_render hb (renderBlocks bs)),
        scanBlocks_skip (tryBlock_not_lt (by decide)), ih hrest, List.map_cons]

/-- C10: on any sequence of well-formed blocks, the decoder's mapping is
keyed by block name alone (the block kind is captured by the regex but
never consulted): the value returned for a name is the parsed value list
of the LAST block carrying that name, so a later block overwrites an
earlier one that shares its name, regardless of their kinds. -/
theorem c10_decoder_keyed_by_name_last_wins {bs : List Blk}
    (hwf : ∀ b ∈ bs, WfBlk b) (nm : List Char) :
    decodeLookup (renderBlocks bs) nm =
      (((bs.map (fun b => (b.bname, parseVals b.body))).filter
          (fun kv => kv.1 == nm)).getLast?).map (fun kv => kv.2) := by
  unfold decodeLookup decodeAssign
  rw [scanBlocks_render hwf, List.map_map]
  have hc : ((fun (p : List Char × List Char) => (p.1, parseVals p.2)) ∘
      (fun (b : Blk) => (b.bname, b.body))) =
      (fun b => (b.bname, parseVals b.body)) := rfl
  rw [hc]

/-- Two blocks named `V1`, an `indep` one and a later `dep` one. -/
def netC10bs : List Blk :=
  [⟨.indep, "V1".toList, "1".toList, valBody [1]⟩,
   ⟨.dep, "V1".toList, "1".toList, valBody [2]⟩]

/-! ### Character facts about the `"%e"` formatter -/

theorem natDigitsRevF_lt10 : ∀ (fuel m : Nat), ∀ d ∈ natDigitsRevF fuel m, d < 10 := by
  intro fuel
  induction fuel with
  | zero => intro m d hd; simp [natDigitsRevF] at hd
  | succ f ih =>
    intro m d hd
    rw [natDigitsRevF] at hd
    by_cases hm : m < 10
    · rw [if_pos hm] at hd
      simp only [List.mem_singleton] at hd
      subst hd; exact hm
    · rw [if_neg hm] at hd
      rcases List.mem_cons.mp hd with h | h
      · subst h; exact Nat.mod_lt _ (by norm_num)
      · exact ih _ d h

theorem natDigits_lt10 {m d : Nat} (hd : d ∈ natDigits m) : d < 10 :=
  natDigitsRevF_lt10 _ _ d (List.mem_reverse.mp hd)

theorem natDigitsRevF_ne_nil (fuel m : Nat) : natDigitsRevF (fuel + 1) m ≠ [] := by
  rw [natDigitsRevF]
  by_cases hm : m < 10
  · rw [if_pos hm]; exact List.cons_ne_nil _ _
  · rw [if_neg hm]; exact List.cons_ne_nil _ _

theorem natDigits_ne_nil (m : Nat) : natDigits m ≠ [] := by
  intro h
  exact natDigitsRevF_ne_nil m m ((List.reverse_eq_nil_iff).mp h)

theorem digitChar_mem_digits {d : Nat} (h : d < 10) :
    digitChar d ∈ "0123456789".toList := by
  interval_cases d <;> with_unfolding_all decide

theorem mem_digits_isDigit {c : Char} (h : c ∈ "0123456789".toList) :
    c.isDigit = true := by
  have h' : c ∈ ['0','1','2','3','4','5','6','7','8','9'] := h
  fin_cases h' <;> decide

theorem mem_digits_not_space {c : Char} (h : c ∈ "0123456789".toList) :
    isPySpace c = false := by
  have h' : c ∈ ['0','1','2','3','4','5','6','7','8','9'] := h
  fin_cases h' <;> decide

theorem mem_padLeftZeros {k : Nat} {l : List Char} {c : Char}
    (h : c ∈ padLeftZeros k l) : c = '0' ∨ c ∈ l := by
  unfold padLeftZeros at h
  rcases List.mem_append.mp h with h | h
  · exact Or.inl (List.eq_of_mem_replicate h)
  · exact Or.inr h

theorem padLeftZeros_ne_nil {k : Nat} (hk : 0 < k) (l : List Char) :
    padLeftZeros k l ≠ [] := by
  intro h
  have := congrArg List.length h
  simp only [padLeftZeros, List.length_append, List.length_replicate,
    List.length_nil] at this
  omega

theorem renderNat_digits {m : Nat} : ∀ c ∈ renderNat m, c ∈ "0123456789".toList := by
  intro c hc
  unfold renderNat at hc
  obtain ⟨d, hd, hdc⟩ := List.mem_map.mp hc
  subst hdc
  exact digitChar_mem_digits (natDigits_lt10 hd)

/-- Every `"%e"` output decomposes as an optional minus sign, a digit,
a dot, a digit run, `e`, an exponent sign and a nonempty digit run. -/
theorem fmtE_shape (q : ℚ) :
    ∃ (pre : List Char) (lead esign : Char) (frac eabs : List Char),
      fmtE q = pre ++ lead :: '.' :: frac ++ 'e' :: esign :: eabs ∧
      (pre = [] ∨ pre = ['-']) ∧
      lead ∈ "0123456789".toList ∧
      (∀ c ∈ frac, c ∈ "0123456789".toList) ∧
      (esign = '+' ∨ esign = '-') ∧
      eabs ≠ [] ∧
      (∀ c ∈ eabs, c ∈ "0123456789".toList) := by
  rcases eq_or_ne q 0 with hq | hq
  · subst hq
    exact ⟨[], '0', '+', "000000".toList, "00".toList,
      by with_unfolding_all decide, Or.inl rfl, by with_unfolding_all decide,
      by with_unfolding_all decide, Or.inl rfl, by with_unfolding_all decide,
      by with_unfolding_all decide⟩
  · rw [fmtE, if_neg hq]
    refine ⟨(if q < 0 then ['-'] else []),
      (((natDigits (fmtEmant q).1).map digitChar).headD '0'),
      (if (fmtEmant q).2 < 0 then '-' else '+'),
      padLeftZeros 6 ((natDigits (fmtEmant q).1).map digitChar).tail,
      padLeftZeros 2 (renderNat (fmtEmant q).2.natAbs),
      rfl, ?_, ?_, ?_, ?_, ?_, ?_⟩
    · split
      · exact Or.inr rfl
      · exact Or.inl rfl
    · cases hds : (natDigits (fmtEmant q).1).map digitChar with
      | nil => simp only [List.headD_nil]; with_unfolding_all decide
      | cons c cs =>
        simp only [List.headD_cons]
        have : c ∈ (natDigits (fmtEmant q).1).map digitChar := by
          rw [hds]; exact List.mem_cons_self c cs
        obtain ⟨d, hd, hdc⟩ := List.mem_map.mp this
        subst hdc
        exact digitChar_mem_digits (natDigits_lt10 hd)
    · intro c hc
      rcases mem_padLeftZeros hc with h | h
      · subst h; with_unfolding_all decide
      · have : c ∈ (natDigits (fmtEmant q).1).map digitChar := List.mem_of_mem_tail h
        obtain ⟨d, hd, hdc⟩ := List.mem_map.mp this
        subst hdc
        exact digitChar_mem_digits (natDigits_lt10 hd)
    · split
      · exact Or.inr rfl
      · exact Or.inl rfl
    · exact padLeftZeros_ne_nil (by norm_num) _
    · intro c hc
      rcases mem_padLeftZeros hc with h | h
      · subst h; with_unfolding_all decide
      · exact renderNat_digits c h

theorem mem_digits_mem_alpha {c : Char} (h : c ∈ "0123456789".toList) :
    c ∈ "0123456789-+.e".toList := by
  have h' : c ∈ ['0','1','2','3','4','5','6','7','8','9'] := h
  fin_cases h' <;> with_unfolding_all decide

/-- Every character the formatter emits: digits, signs, dot, `e`. -/
theorem fmtE_chars {q : ℚ} : ∀ c ∈ fmtE q, c ∈ "0123456789-+.e".toList := by
  obtain ⟨pre, lead, esign, frac, eabs, heq, hpre, hlead, hfrac, hesign, -, heabsd⟩ :=
    fmtE_shape q
  intro c hc
  rw [heq] at hc
  have hsplit : c ∈ pre ∨ c = lead ∨ c = '.' ∨ c ∈ frac ∨ c = 'e' ∨ c = esign ∨
      c ∈ eabs := by
    simp only [List.mem_append, List.mem_cons] at hc
    tauto
  rcases hsplit with hc2 | hc2 | hc2 | hc2 | hc2 | hc2 | hc2
  · rcases hpre with h | h
    · subst h; simp at hc2
    · subst h
      simp only [List.mem_singleton] at hc2
      subst hc2; with_unfolding_all decide
  · subst hc2; exact mem_digits_mem_alpha hlead
  · subst hc2; with_unfolding_all decide
  · exact mem_digits_mem_alpha (hfrac c hc2)
  · subst hc2; with_unfolding_all decide
  · subst hc2
    rcases hesign with h | h <;> (subst h; with_unfolding_all decide)
  · exact mem_digits_mem_alpha (heabsd c hc2)

theorem mem_alpha_not_space {c : Char} (h : c ∈ "0123456789-+.e".toList) :
    isPySpace c = false := by
  have h' : c ∈ ['0','1','2','3','4','5','6','7','8','9','-','+','.','e'] := h
  fin_cases h' <;> decide

theorem mem_alpha_ne_lt {c : Char} (h : c ∈ "0123456789-+.e".toList) : c ≠ '<' := by
  have h' : c ∈ ['0','1','2','3','4','5','6','7','8','9','-','+','.','e'] := h
  fin_cases h' <;> decide

theorem fmtE_ne_nil (q : ℚ) : fmtE q ≠ [] := by
  obtain ⟨pre, lead, esign, frac, eabs, heq, -, -, -, -, -, -⟩ := fmtE_shape q
  rw [heq]
  intro h
  rcases List.append_eq_nil.mp h with ⟨-, h2⟩
  exact List.cons_ne_nil _ _ h2

theorem pyStrip_eq_self {l : List Char} (h : ∀ c ∈ l, isPySpace c = false) :
    pyStrip l = l := by
  unfold pyStrip
  rw [dropWhile_eq_self_of_all_false h,
      dropWhile_eq_self_of_all_false (fun c hc => h c (List.mem_reverse.mp hc)),
      List.reverse_reverse]

/-- The optional-sign match at the head of `float`/`int` parsing is the
identity when the first character is not a sign. -/
theorem sign_match_id {c : Char} (h1 : c ≠ '-') (h2 : c ≠ '+') (cs : List Char) :
    (match c :: cs with
      | '-' :: r => r
      | '+' :: r => r
      | r => r) = c :: cs := by
  split
  · rename_i heq
    rw [List.cons.injEq] at heq
    exact absurd heq.1 h1
  · rename_i heq
    rw [List.cons.injEq] at heq
    exact absurd heq.1 h2
  · rfl

/-- `float(...)` succeeds on any string of the scientific-notation shape
the formatter produces. -/
theorem pyFloat_sci_isSome {pre : List Char} {lead esign : Char} {frac eabs : List Char}
    (hpre : pre = [] ∨ pre = ['-'])
    (hlead : lead ∈ "0123456789".toList)
    (hfrac : ∀ c ∈ frac, c ∈ "0123456789".toList)
    (hesign : esign = '+' ∨ esign = '-')
    (heabs : eabs ≠ [])
    (heabsd : ∀ c ∈ eabs, c ∈ "0123456789".toList) :
    (pyFloat (pre ++ lead :: '.' :: frac ++ 'e' :: esign :: eabs)).isSome = true := by
  have hfd : ∀ c ∈ frac, c.isDigit = true := fun c hc => mem_digits_isDigit (hfrac c hc)
  have hed : ∀ c ∈ eabs, c.isDigit = true := fun c hc => mem_digits_isDigit (heabsd c hc)
  have htf : (frac ++ 'e' :: esign :: eabs).takeWhile Char.isDigit = frac := by
    rw [takeWhile_append_all hfd, List.takeWhile_cons_of_neg (by decide)]
    exact List.append_nil frac
  have hdf : (frac ++ 'e' :: esign :: eabs).dropWhile Char.isDigit =
      'e' :: esign :: eabs := by
    rw [dropWhile_append_all hfd]
    exact List.dropWhile_cons_of_neg (by decide)
  have hte : eabs.takeWhile Char.isDigit = eabs := takeWhile_eq_self_of_all hed
  have hde : eabs.dropWhile Char.isDigit = [] := dropWhile_eq_nil_of_all hed
  have hns : ∀ c ∈ pre ++ lead :: '.' :: frac ++ 'e' :: esign :: eabs,
      isPySpace c = false := by
    intro c hc
    have hsplit : c ∈ pre ∨ c = lead ∨ c = '.' ∨ c ∈ frac ∨ c = 'e' ∨ c = esign ∨
        c ∈ eabs := by
      simp only [List.mem_append, List.mem_cons] at hc
      tauto
    rcases hsplit with hc2 | hc2 | hc2 | hc2 | hc2 | hc2 | hc2
    · rcases hpre with h | h
      · subst h; simp at hc2
      · subst h
        simp only [List.mem_singleton] at hc2
        subst hc2; decide
    · subst hc2; exact mem_digits_not_space hlead
    · subst hc2; decide
    · exact mem_digits_not_space (hfrac c hc2)
    · subst hc2; decide
    · subst hc2; rcases hesign with h | h <;> (subst h; decide)
    · exact mem_digits_not_space (heabsd c hc2)
  have hnsp : pyStrip (pre ++ lead :: '.' :: frac ++ 'e' :: esign :: eabs) =
      pre ++ lead :: '.' :: frac ++ 'e' :: esign :: eabs := pyStrip_eq_self hns
  obtain ⟨hlne1, hlne2, hleadd⟩ : lead ≠ '-' ∧ lead ≠ '+' ∧ lead.isDigit = true := by
    have h' : lead ∈ ['0','1','2','3','4','5','6','7','8','9'] := hlead
    fin_cases h' <;> exact ⟨by decide, by decide, by decide⟩
  rcases hpre with hp | hp <;> subst hp <;> rcases hesign with hs | hs <;> subst hs
  · simp only [List.cons_append, List.nil_append] at hnsp
    simp only [pyFloat, List.nil_append, List.cons_append, hnsp]
    rw [sign_match_id hlne1 hlne2]
    rw [List.takeWhile_cons_of_pos hleadd, List.takeWhile_cons_of_neg (by decide),
        List.dropWhile_cons_of_pos hleadd, List.dropWhile_cons_of_neg (by decide)]
    simp [htf, hdf, hte, hde, heabs]
  · simp only [List.cons_append, List.nil_append] at hnsp
    simp only [pyFloat, List.nil_append, List.cons_append, hnsp]
    rw [sign_match_id hlne1 hlne2]
    rw [List.takeWhile_cons_of_pos hleadd, List.takeWhile_cons_of_neg (by decide),
        List.dropWhile_cons_of_pos hleadd, List.dropWhile_cons_of_neg (by decide)]
    simp [htf, hdf, hte, hde, heabs]
  · simp only [List.cons_append, List.nil_append] at hnsp
    simp only [pyFloat, List.nil_append, List.cons_append, hnsp]
    rw [List.takeWhile_cons_of_pos hleadd, List.takeWhile_cons_of_neg (by decide),
        List.dropWhile_cons_of_pos hleadd, List.dropWhile_cons_of_neg (by decide)]
    simp [htf, hdf, hte, hde, heabs]
  · simp only [List.cons_append, List.nil_append] at hnsp
    simp only [pyFloat, List.nil_append, List.cons_append, hnsp]
    rw [List.takeWhile_cons_of_pos hleadd, List.takeWhile_cons_of_neg (by decide),
        List.dropWhile_cons_of_pos hleadd, List.dropWhile_cons_of_neg (by decide)]
    simp [htf, hdf, hte, hde, heabs]

/-- Every `"%e"` output parses back through `float(...)`. -/
theorem pyFloat_fmtE_isSome (q : ℚ) : (pyFloat (fmtE q)).isSome = true := by
  obtain ⟨pre, lead, esign, frac, eabs, heq, hpre, hlead, hfrac, hesign, heabs, heabsd⟩ :=
    fmtE_shape q
  rw [heq]
  exact pyFloat_sci_isSome hpre hlead hfrac hesign heabs heabsd

/-! ### `str.split()` on the encoder's value bodies -/

theorem pySplitWs_cons (c : Char) (cs : List Char) :
    pySplitWs (c :: cs) = if isPySpace c then pySplitWs cs
      else (c :: cs.takeWhile (fun d => !isPySpace d)) ::
           pySplitWs (cs.dropWhile (fun d => !isPySpace d)) := by
  rw [pySplitWs.eq_def]

theorem pySplitWs_nil : pySplitWs [] = [] := by
  rw [pySplitWs.eq_def]

theorem pySplitWs_all_space : ∀ {S : List Char}, (∀ c ∈ S, isPySpace c = true) →
    pySplitWs S = [] := by
  intro S
  induction S with
  | nil => intro _; exact pySplitWs_nil
  | cons c cs ih =>
    intro h
    rw [pySplitWs_cons, if_pos (h c (List.mem_cons_self c cs))]
    exact ih (fun d hd => h d (List.mem_cons_of_mem c hd))

theorem pySplitWs_dropWhile : ∀ (l : List Char),
    pySplitWs (l.dropWhile isPySpace) = pySplitWs l := by
  intro l
  induction l with
  | nil => rfl
  | cons c cs ih =>
    by_cases hc : isPySpace c
    · rw [List.dropWhile_cons_of_pos hc, ih, pySplitWs_cons, if_pos hc]
    · rw [List.dropWhile_cons_of_neg hc]

theorem dropWhile_head_not {p : Char → Bool} :
    ∀ {l : List Char} {r : Char} {rs : List Char},
      l.dropWhile p = r :: rs → p r = false := by
  intro l
  induction l with
  | nil => intro r rs h; exact absurd h (by simp)
  | cons c cs ih =>
    intro r rs h
    by_cases hc : p c
    · rw [List.dropWhile_cons_of_pos hc] at h
      exact ih h
    · rw [List.dropWhile_cons_of_neg hc] at h
      rw [List.cons.injEq] at h
      rw [← h.1]
      exact Bool.not_eq_true _ |>.mp hc

theorem pySplitWs_append_spaces_aux :
    ∀ (n : Nat) (A S : List Char), A.length < n →
      (∀ c ∈ S, isPySpace c = true) → pySplitWs (A ++ S) = pySplitWs A := by
  intro n
  induction n with
  | zero => intro A S h _; omega
  | succ m ih =>
    intro A S hlen hS
    cases A with
    | nil =>
      rw [List.nil_append, pySplitWs_all_space hS, pySplitWs_nil]
    | cons c cs =>
      rw [List.cons_append, pySplitWs_cons, pySplitWs_cons]
      simp only [List.length_cons] at hlen
      by_cases hc : isPySpace c
      · rw [if_pos hc, if_pos hc]
        exact ih cs S (by omega) hS
      · rw [if_neg hc, if_neg hc]
        have hT : ∀ d ∈ cs.takeWhile (fun d => !isPySpace d), (!isPySpace d) = true := by
          intro d hd
          exact List.mem_takeWhile_imp (p := fun d => !isPySpace d) hd
        have hcs : cs.takeWhile (fun d => !isPySpace d) ++
            cs.dropWhile (fun d => !isPySpace d) = cs :=
          List.takeWhile_append_dropWhile (fun d => !isPySpace d) cs
        have hSt : S.takeWhile (fun d => !isPySpace d) = [] := by
          cases S with
          | nil => rfl
          | cons s S' =>
            exact List.takeWhile_cons_of_neg
              (by simp [hS s (List.mem_cons_self s S')])
        have hSd : S.dropWhile (fun d => !isPySpace d) = S :=
          dropWhile_eq_self_of_all_false (fun d hd => by
            simp [hS d hd])
        cases hR : cs.dropWhile (fun d => !isPySpace d) with
        | nil =>
          have hcsT : cs.takeWhile (fun d => !isPySpace d) = cs := by
            rw [hR, List.append_nil] at hcs
            exact hcs
          have hall : ∀ d ∈ cs, (!isPySpace d) = true :=
            fun d hd => hT d (by rw [hcsT]; exact hd)
          rw [takeWhile_append_all hall, hSt, List.append_nil,
              dropWhile_append_all hall, hSd, pySplitWs_all_space hS, hcsT,
              pySplitWs_nil]
        | cons r R' =>
          have hr : (!isPySpace r) = false := dropWhile_head_not hR
          have h1 : (cs ++ S).takeWhile (fun d => !isPySpace d) =
              cs.takeWhile (fun d => !isPySpace d) := by
            conv_lhs => rw [← hcs, List.append_assoc, hR]
            rw [takeWhile_append_all hT, List.cons_append,
                List.takeWhile_cons_of_neg (by rw [hr]; exact Bool.false_ne_true),
                List.append_nil]
          have h2 : (cs ++ S).dropWhile (fun d => !isPySpace d) =
              cs.dropWhile (fun d => !isPySpace d) ++ S := by
            conv_lhs => rw [← hcs, List.append_assoc, hR]
            rw [dropWhile_append_all hT, List.cons_append,
                List.dropWhile_cons_of_neg (by rw [hr]; exact Bool.false_ne_true),
                hR, List.cons_append]
          have hRlen := length_dropWhile_le (fun d => !isPySpace d) cs
          rw [hR] at hRlen
          rw [h1, h2, hR,
              ih (r :: R') S (by simp only [List.length_cons] at hRlen ⊢; omega) hS]

theorem pySplitWs_append_spaces {A S : List Char}
    (hS : ∀ c ∈ S, isPySpace c = true) : pySplitWs (A ++ S) = pySplitWs A :=
  pySplitWs_append_spaces_aux (A.length + 1) A S (Nat.lt_succ_self _) hS

/-- `str.split()` ignores surrounding whitespace, so `strip()` first
changes nothing. -/
theorem pySplitWs_strip (l : List Char) : pySplitWs (pyStrip l) = pySplitWs l := by
  unfold pyStrip
  have hdecomp :
      ((l.dropWhile isPySpace).reverse.dropWhile isPySpace).reverse ++
        ((l.dropWhile isPySpace).reverse.takeWhile isPySpace).reverse =
        l.dropWhile isPySpace := by
    rw [← List.reverse_append,
        List.takeWhile_append_dropWhile isPySpace (l.dropWhile isPySpace).reverse,
        List.reverse_reverse]
  have hsp : ∀ c ∈ ((l.dropWhile isPySpace).reverse.takeWhile isPySpace).reverse,
      isPySpace c = true := by
    intro c hc
    exact List.mem_takeWhile_imp (p := isPySpace) (List.mem_reverse.mp hc)
  calc pySplitWs ((l.dropWhile isPySpace).reverse.dropWhile isPySpace).reverse
      = pySplitWs
          (((l.dropWhile isPySpace).reverse.dropWhile isPySpace).reverse ++
            ((l.dropWhile isPySpace).reverse.takeWhile isPySpace).reverse) :=
        (pySplitWs_append_spaces hsp).symm
    _ = pySplitWs (l.dropWhile isPySpace) := by rw [hdecomp]
    _ = pySplitWs l := pySplitWs_dropWhile l

/-- `split()` of newline-terminated whitespace-free tokens returns
exactly the tokens. -/
theorem pySplitWs_flatten : ∀ {ts : List (List Char)},
    (∀ t ∈ ts, t ≠ [] ∧ ∀ c ∈ t, isPySpace c = false) →
    pySplitWs ((ts.map (fun t => t ++ ['\n'])).flatten) = ts := by
  intro ts
  induction ts with
  | nil => intro _; exact pySplitWs_nil
  | cons t rest ih =>
    intro h
    obtain ⟨hne, hns⟩ := h t (List.mem_cons_self t rest)
    rw [List.map_cons, List.flatten_cons]
    cases t with
    | nil => exact absurd rfl hne
    | cons c cs =>
      have hnsc : ∀ d ∈ cs, (!isPySpace d) = true := fun d hd => by
        rw [hns d (List.mem_cons_of_mem c hd)]; rfl
      simp only [List.cons_append, List.append_assoc, List.singleton_append]
      rw [pySplitWs_cons,
          if_neg (by rw [hns c (List.mem_cons_self c cs)]; exact Bool.false_ne_true)]
      rw [takeWhile_append_all hnsc, List.takeWhile_cons_of_neg (by decide),
          List.append_nil,
          dropWhile_append_all hnsc, List.dropWhile_cons_of_neg (by decide)]
      rw [pySplitWs_cons, if_pos (by decide)]
      rw [List.nil_append, ih (fun u hu => h u (List.mem_cons_of_mem _ hu))]

theorem filterMap_isSome_getD {α β : Type} (f : α → Option β) (dflt : β) :
    ∀ {l : List α}, (∀ a ∈ l, (f a).isSome = true) →
      l.filterMap f = l.map (fun a => (f a).getD dflt) := by
  intro l
  induction l with
  | nil => intro _; rfl
  | cons a as ih =>
    intro h
    rw [List.filterMap_cons, List.map_cons]
    have ha := h a (List.mem_cons_self a as)
    cases hfa : f a with
    | none => rw [hfa] at ha; simp at ha
    | some b =>
      rw [ih (fun x hx => h x (List.mem_cons_of_mem a hx))]
      simp [hfa]

/-- Decoding a value body recovers one parsed float per formatted value:
the formatter's output always parses, so nothing is dropped. -/
theorem parseVals_valBody (vals : List ℚ) :
    parseVals (valBody vals) = vals.map (fun v => (pyFloat (fmtE v)).getD 0) := by
  unfold parseVals valBody
  rw [pySplitWs_strip, pySplitWs_cons, if_pos (by decide)]
  have hmap : vals.map (fun v => fmtE v ++ ['\n']) =
      (vals.map fmtE).map (fun t => t ++ ['\n']) := by
    rw [List.map_map]
    rfl
  rw [hmap,
      pySplitWs_flatten (fun t ht => by
        obtain ⟨v, hv, rfl⟩ := List.mem_map.mp ht
        exact ⟨fmtE_ne_nil v, fun c hc => mem_alpha_not_space (fmtE_chars c hc)⟩),
      List.filterMap_map,
      filterMap_isSome_getD (pyFloat ∘ fmtE) 0
        (fun v hv => pyFloat_fmtE_isSome v)]
  rfl

/-! ### The round-trip through the encoder and the decoder -/

/-- Inversion of a successful `encodeBlocks`: the output is one `indep`
block followed by one `dep` block per free node. -/
theorem encodeBlocks_ok_shape {txt : List Char} {nl : List (List Char)} {x : Vec}
    {bs : List Blk} {p : ℤ}
    (henc : encodeBlocks txt nl x = .ok bs)
    (hp : pyInt (pyGet (simParamsOf txt) "Points".toList "2".toList) = some p) :
    ∃ ivals : List ℚ,
      bs = ⟨.indep, pyGet (simParamsOf txt) "Param".toList "sweep".toList,
              renderInt p, valBody ivals⟩ ::
           nl.enum.map (fun pr => ⟨.dep, pr.2,
              pyGet (simParamsOf txt) "Param".toList "sweep".toList,
              valBody (List.replicate p.toNat (x pr.1))⟩) := by
  simp only [encodeBlocks] at henc
  cases hstart : toFloatExc (pyGet (simParamsOf txt) "Start".toList "0".toList) with
  | error e =>
    rw [hstart] at henc
    simp only [Bind.bind, Except.bind] at henc
    exact absurd henc (by simp)
  | ok start =>
    cases hstop : toFloatExc (pyGet (simParamsOf txt) "Stop".toList "10".toList) with
    | error e =>
      rw [hstart, hstop] at henc
      simp only [Bind.bind, Except.bind] at henc
      exact absurd henc (by simp)
    | ok stop =>
      rw [hstart, hstop] at henc
      simp only [hp, Bind.bind, Except.bind, Except.ok.injEq] at henc
      exact ⟨_, henc.symm⟩

theorem mem_digits_isWordChar {c : Char} (h : c ∈ "0123456789".toList) :
    isWordChar c = true := by
  have h' : c ∈ ['0','1','2','3','4','5','6','7','8','9'] := h
  fin_cases h' <;> decide

theorem renderNat_wfWord (m : Nat) : WfWord (renderNat m) := by
  constructor
  · unfold renderNat
    intro h
    exact natDigits_ne_nil m (List.map_eq_nil_iff.mp h)
  · exact fun c hc => mem_digits_isWordChar (renderNat_digits c hc)

theorem renderInt_nonneg_wfWord {z : ℤ} (hz : 0 ≤ z) : WfWord (renderInt z) := by
  unfold renderInt
  rw [if_neg (not_lt.mpr hz), List.nil_append]
  exact renderNat_wfWord z.natAbs

theorem valBody_ne_lt (vals : List ℚ) : ∀ c ∈ valBody vals, c ≠ '<' := by
  intro c hc
  unfold valBody at hc
  rcases List.mem_cons.mp hc with h | h
  · subst h; decide
  · obtain ⟨piece, hpiece, hcp⟩ := List.mem_flatten.mp h
    obtain ⟨v, -, hv⟩ := List.mem_map.mp hpiece
    subst hv
    rcases List.mem_append.mp hcp with h2 | h2
    · exact mem_alpha_ne_lt (fmtE_chars c h2)
    · rw [List.mem_singleton] at h2
      subst h2; decide

theorem mem_enum_snd {α : Type} {l : List α} {pr : Nat × α} (h : pr ∈ l.enum) :
    pr.2 ∈ l := by
  obtain ⟨k, hk⟩ := List.mem_iff_getElem?.mp h
  rw [List.getElem?_enum] at hk
  cases hnk : l[k]? with
  | none => rw [hnk] at hk; exact absurd hk (by simp)
  | some t =>
    rw [hnk] at hk
    simp only [Option.map_some', Option.some.injEq] at hk
    have : t = pr.2 := congrArg Prod.snd hk
    subst this
    exact List.mem_iff_getElem?.mpr ⟨k, hnk⟩

theorem head?_filter_eq_find? {α : Type} (q : α → Bool) :
    ∀ (l : List α), (l.filter q).head? = l.find? q := by
  intro l
  induction l with
  | nil => rfl
  | cons a as ih =>
    cases hq : q a with
    | true =>
      rw [List.filter_cons_of_pos hq, List.find?_cons_of_pos _ hq, List.head?_cons]
    | false =>
      rw [List.filter_cons_of_neg (by simp [hq]), List.find?_cons_of_neg _ (by simp [hq]),
          ih]

theorem getLast?_filter_eq_find?_reverse {α : Type} (q : α → Bool) (l : List α) :
    (l.filter q).getLast? = l.reverse.find? q := by
  rw [List.getLast?_eq_head?_reverse, ← List.filter_reverse, head?_filter_eq_find?]

theorem find?_append_none {α : Type} {q : α → Bool} :
    ∀ {A : List α}, A.find? q = none → ∀ (B : List α), (A ++ B).find? q = B.find? q := by
  intro A
  induction A with
  | nil => intro _ B; rfl
  | cons a as ih =>
    intro h B
    have hq : q a = false := by
      cases hq : q a
      · rfl
      · rw [List.find?_cons_of_pos _ hq] at h
        exact absurd h (by simp)
    rw [List.find?_cons_of_neg _ (by simp [hq])] at h
    rw [List.cons_append, List.find?_cons_of_neg _ (by simp [hq])]
    exact ih h B

theorem find?_append_some {α : Type} {q : α → Bool} :
    ∀ {A : List α} {a : α}, A.find? q = some a →
      ∀ (B : List α), (A ++ B).find? q = some a := by
  intro A
  induction A with
  | nil => intro a h B; exact absurd h (by simp)
  | cons x xs ih =>
    intro a h B
    cases hq : q x with
    | true =>
      rw [List.find?_cons_of_pos _ hq] at h
      rw [List.cons_append, List.find?_cons_of_pos _ hq]
      exact h
    | false =>
      rw [List.find?_cons_of_neg _ (by simp [hq])] at h
      rw [List.cons_append, List.find?_cons_of_neg _ (by simp [hq])]
      exact ih h B

theorem enum_split {α : Type} {l : List α} {idx : Nat} {a : α}
    (h : l[idx]? = some a) :
    l.enum = (l.take idx).enum ++ (idx, a) :: (l.drop (idx + 1)).enumFrom (idx + 1) := by
  have hlt : idx < l.length := by
    by_contra hge
    rw [List.getElem?_eq_none (by omega)] at h
    exact absurd h (by simp)
  have ha : l[idx] = a := by
    rw [List.getElem?_eq_getElem hlt] at h
    exact Option.some.inj h
  have hdrop : l.drop idx = a :: l.drop (idx + 1) := by
    rw [List.drop_eq_getElem_cons hlt, ha]
  have hlen : (l.take idx).length = idx := by
    rw [List.length_take]
    omega
  conv_lhs => rw [List.enum, ← List.take_append_drop idx l, hdrop]
  rw [List.enumFrom_append, Nat.zero_add, hlen]
  rfl

/-! ### Scanning past blocks whose name the block regex cannot match

A rendered block whose name is not a `\w+` word never matches: not at
its opening `<`, not at a `<` inside the name, and not at its closing
tag.  The scanner therefore walks through it character by character and
resumes cleanly at the next block. -/

/-- What the skip argument needs of a block: a whitespace-free name (a
netlist node token), a word-character type field, and a `<`-free body. -/
def ScanBlk (b : Blk) : Prop :=
  (∀ c ∈ b.bname, isPySpace c = false) ∧ WfWord b.btyp ∧ ∀ c ∈ b.body, c ≠ '<'

/-- Decidable form of "nonempty `\w+` word". -/
def isWordTok (w : List Char) : Bool := !w.isEmpty && w.all isWordChar

theorem wfWord_isWordTok {w : List Char} (h : WfWord w) : isWordTok w = true := by
  unfold isWordTok
  rw [Bool.and_eq_true, List.all_eq_true]
  exact ⟨by cases w with
    | nil => exact absurd rfl h.1
    | cons c cs => rfl, h.2⟩

theorem isWordTok_wfWord {w : List Char} (h : isWordTok w = true) : WfWord w := by
  unfold isWordTok at h
  rw [Bool.and_eq_true, List.all_eq_true] at h
  refine ⟨?_, h.2⟩
  cases w with
  | nil => exact absurd h.1 (by decide)
  | cons c cs => exact List.cons_ne_nil c cs

theorem wfBlk_scanBlk {b : Blk} (h : WfBlk b) : ScanBlk b :=
  ⟨fun c hc => word_not_space (h.1.2 c hc), h.2.1, h.2.2⟩

theorem scanBlk_wfBlk {b : Blk} (hs : ScanBlk b)
    (hw : isWordTok b.bname = true) : WfBlk b :=
  ⟨isWordTok_wfWord hw, hs.2.1, hs.2.2⟩

theorem kindChars_ne_lt {k : BKind} : ∀ c ∈ kindChars k, c ≠ '<' := by
  cases k <;> (intro c hc; fin_cases hc <;> decide)

theorem kindChars_no_space {k : BKind} : ∀ c ∈ kindChars k, isPySpace c = false := by
  cases k <;> (intro c hc; fin_cases hc <;> decide)

theorem word_ne_lt {c : Char} (h : isWordChar c = true) : c ≠ '<' := by
  intro he
  subst he
  exact absurd h (by decide)

/-- A `<` in `A ++ B` with `<`-free `A` sits inside `B`. -/
theorem lt_split {A : List Char} (hA : ∀ c ∈ A, c ≠ '<') :
    ∀ {B u w : List Char}, A ++ B = u ++ '<' :: w →
      ∃ u', B = u' ++ '<' :: w ∧ u = A ++ u' := by
  induction A with
  | nil =>
    intro B u w h
    rw [List.nil_append] at h
    exact ⟨u, h, rfl⟩
  | cons a A' ih =>
    intro B u w h
    cases u with
    | nil =>
      rw [List.nil_append] at h
      rw [List.cons_append, List.cons.injEq] at h
      exact absurd h.1 (hA a (List.mem_cons_self a A'))
    | cons x u' =>
      rw [List.cons_append, List.cons_append, List.cons.injEq] at h
      obtain ⟨u'', h1, h2⟩ := ih (fun c hc => hA c (List.mem_cons_of_mem a hc)) h.2
      exact ⟨u'', h1, by rw [h2, h.1, List.cons_append]⟩

/-- A `<` in `A ++ B` sits inside `A` (exposing the split) or inside `B`. -/
theorem lt_split_or :
    ∀ {A B u w : List Char}, A ++ B = u ++ '<' :: w →
      (∃ a1 a2, A = a1 ++ '<' :: a2 ∧ w = a2 ++ B) ∨
      (∃ u', B = u' ++ '<' :: w) := by
  intro A
  induction A with
  | nil =>
    intro B u w h
    rw [List.nil_append] at h
    exact Or.inr ⟨u, h⟩
  | cons a A' ih =>
    intro B u w h
    cases u with
    | nil =>
      rw [List.nil_append, List.cons_append, List.cons.injEq] at h
      exact Or.inl ⟨[], A', by rw [h.1, List.nil_append], h.2.symm⟩
    | cons x u' =>
      rw [List.cons_append, List.cons_append, List.cons.injEq] at h
      rcases ih h.2 with ⟨a1, a2, h1, h2⟩ | ⟨u'', h1⟩
      · exact Or.inl ⟨a :: a1, a2, by rw [h1, List.cons_append], h2⟩
      · exact Or.inr ⟨u'', h1⟩

theorem takeKind_slash (s : List Char) : takeKind ('/' :: s) = none := by
  unfold takeKind
  rw [if_neg (by simp [List.isPrefixOf]), if_neg (by simp [List.isPrefixOf])]

/-- No block match starts at a closing tag. -/
theorem tryBlock_fail_slash (s : List Char) : tryBlock ('<' :: '/' :: s) = none := by
  simp only [tryBlock, takeKind_slash]

/-- A whitespace-free keyword that is a prefix of `n2 ++ ' ' :: rest`
lies entirely inside `n2`. -/
theorem isPrefixOf_ws_free {kw : List Char} (hkw : ∀ c ∈ kw, isPySpace c = false) :
    ∀ {n2 rest : List Char}, kw.isPrefixOf (n2 ++ ' ' :: rest) = true →
      ∃ n2', n2 = kw ++ n2' := by
  induction kw with
  | nil => intro n2 rest _; exact ⟨n2, rfl⟩
  | cons k kw' ih =>
    intro n2 rest h
    cases n2 with
    | nil =>
      rw [List.nil_append] at h
      simp only [List.isPrefixOf, Bool.and_eq_true, beq_iff_eq] at h
      have := hkw k (List.mem_cons_self k kw')
      rw [h.1] at this
      exact absurd this (by decide)
    | cons m n2'' =>
      rw [List.cons_append] at h
      simp only [List.isPrefixOf, Bool.and_eq_true, beq_iff_eq] at h
      obtain ⟨n2', hn2'⟩ := ih (fun c hc => hkw c (List.mem_cons_of_mem k hc)) h.2
      exact ⟨n2', by rw [hn2', h.1, List.cons_append]⟩

/-- `dropWhile` whitespace is the identity on a list with a nonempty
whitespace-free prefix. -/
theorem dropWhile_space_at_nonspace {w T : List Char} (hne : w ≠ [])
    (hws : ∀ c ∈ w, isPySpace c = false) :
    (w ++ T).dropWhile isPySpace = w ++ T := by
  cases w with
  | nil => exact absurd rfl hne
  | cons c cs =>
    rw [List.cons_append, List.dropWhile_cons_of_neg]
    rw [hws c (List.mem_cons_self c cs)]
    exact Bool.false_ne_true

/-- No block match starts at the opening `<` of a block whose name is
not a `\w+` word (the name being whitespace-free). -/
theorem tryBlock_fail_header {k : BKind} {name typ : List Char}
    (hname : ∀ c ∈ name, isPySpace c = false)
    (hnw : isWordTok name = false)
    (hty : WfWord typ) (rest : List Char) :
    tryBlock ('<' :: (kindChars k ++ (' ' :: (name ++ (' ' ::
      (typ ++ ('>' :: rest))))))) = none := by
  simp only [tryBlock, takeKind_render]
  cases hname0 : name with
  | nil =>
    simp only [List.nil_append]
    have e2 : List.dropWhile isPySpace
        (' ' :: (' ' :: (typ ++ ('>' :: rest)))) = typ ++ ('>' :: rest) := by
      rw [List.dropWhile_cons_of_pos (by decide),
          List.dropWhile_cons_of_pos (by decide), dropWhile_space_at_word hty]
    rw [e2]
    have e4 : List.dropWhile isWordChar (typ ++ ('>' :: rest)) = '>' :: rest := by
      rw [dropWhile_word_run hty, List.dropWhile_cons_of_neg (by decide)]
    rw [e4]
    have e5 : List.takeWhile isPySpace ('>' :: rest) = [] :=
      List.takeWhile_cons_of_neg (by decide)
    rw [e5, if_pos (Or.inr (Or.inr (Or.inl rfl)))]
  | cons c0 name' =>
    rw [← hname0]
    have hnne : name ≠ [] := by rw [hname0]; exact List.cons_ne_nil c0 name'
    cases hR : name.dropWhile isWordChar with
    | nil =>
      exfalso
      have hall : ∀ c ∈ name, isWordChar c = true := by
        have := List.dropWhile_eq_nil_iff.mp hR
        intro c hc
        exact this c hc
      have : isWordTok name = true := wfWord_isWordTok ⟨hnne, hall⟩
      rw [this] at hnw
      exact absurd hnw (by decide)
    | cons r R' =>
      have hr : isWordChar r = false := dropWhile_head_not hR
      have hrmem : r ∈ name := by
        have hsuf := List.dropWhile_suffix (l := name) isWordChar
        rw [hR] at hsuf
        exact hsuf.subset (List.mem_cons_self r R')
      have hrs : isPySpace r = false := hname r hrmem
      have e2 : List.dropWhile isPySpace
          (' ' :: (name ++ (' ' :: (typ ++ ('>' :: rest))))) =
          name ++ (' ' :: (typ ++ ('>' :: rest))) := by
        rw [List.dropWhile_cons_of_pos (by decide),
            dropWhile_space_at_nonspace hnne hname]
      rw [e2]
      have hT : ∀ c ∈ name.takeWhile isWordChar, isWordChar c = true := by
        intro c hc
        exact List.mem_takeWhile_imp (p := isWordChar) hc
      have e4 : List.dropWhile isWordChar
          (name ++ (' ' :: (typ ++ ('>' :: rest)))) =
          r :: (R' ++ (' ' :: (typ ++ ('>' :: rest)))) := by
        conv_lhs =>
          rw [← List.takeWhile_append_dropWhile isWordChar name, hR,
              List.append_assoc]
        rw [dropWhile_append_all hT, List.cons_append,
            List.dropWhile_cons_of_neg (by rw [hr]; exact Bool.false_ne_true)]
      rw [e4]
      have e5 : List.takeWhile isPySpace
          (r :: (R' ++ (' ' :: (typ ++ ('>' :: rest))))) = [] := by
        rw [List.takeWhile_cons_of_neg]
        rw [hrs]
        exact Bool.false_ne_true
      rw [e5, if_pos (Or.inr (Or.inr (Or.inl rfl)))]

/-- No block match starts at a `<` inside a whitespace-free block name. -/
theorem tryBlock_fail_inner {n2 typ : List Char}
    (hn2 : ∀ c ∈ n2, isPySpace c = false)
    (hty : WfWord typ) (rest : List Char) :
    tryBlock ('<' :: (n2 ++ (' ' :: (typ ++ ('>' :: rest))))) = none := by
  simp only [tryBlock]
  cases hp1 : "indep".toList.isPrefixOf (n2 ++ (' ' :: (typ ++ ('>' :: rest)))) with
  | true =>
    obtain ⟨n2', hn2'⟩ := isPrefixOf_ws_free (by decide) hp1
    subst hn2'
    have hk : takeKind (("indep".toList ++ n2') ++ (' ' :: (typ ++ ('>' :: rest)))) =
        some (.indep, n2' ++ (' ' :: (typ ++ ('>' :: rest)))) := by
      unfold takeKind
      rw [List.append_assoc] at hp1 ⊢
      rw [if_pos hp1]
      rw [show (5 : Nat) = "indep".toList.length from rfl, List.drop_left]
    rw [hk]
    cases n2' with
    | nil =>
      simp only [List.nil_append]
      have e2 : List.dropWhile isPySpace (' ' :: (typ ++ ('>' :: rest))) =
          typ ++ ('>' :: rest) := by
        rw [List.dropWhile_cons_of_pos (by decide), dropWhile_space_at_word hty]
      rw [e2]
      have e4 : List.dropWhile isWordChar (typ ++ ('>' :: rest)) = '>' :: rest := by
        rw [dropWhile_word_run hty, List.dropWhile_cons_of_neg (by decide)]
      rw [e4]
      have e5 : List.takeWhile isPySpace ('>' :: rest) = [] :=
        List.takeWhile_cons_of_neg (by decide)
      rw [e5, if_pos (Or.inr (Or.inr (Or.inl rfl)))]
    | cons c n2'' =>
      have hcs : isPySpace c = false := by
        refine hn2 c ?_
        rw [List.mem_append]
        exact Or.inr (List.mem_cons_self c n2'')
      have e1 : List.takeWhile isPySpace
          (c :: (n2'' ++ (' ' :: (typ ++ ('>' :: rest))))) = [] := by
        rw [List.takeWhile_cons_of_neg]
        rw [hcs]
        exact Bool.false_ne_true
      simp only [hk, List.cons_append]
      rw [e1, if_pos (Or.inl rfl)]
  | false =>
    cases hp2 : "dep".toList.isPrefixOf (n2 ++ (' ' :: (typ ++ ('>' :: rest)))) with
    | true =>
      obtain ⟨n2', hn2'⟩ := isPrefixOf_ws_free (by decide) hp2
      subst hn2'
      have hk : takeKind (("dep".toList ++ n2') ++ (' ' :: (typ ++ ('>' :: rest)))) =
          some (.dep, n2' ++ (' ' :: (typ ++ ('>' :: rest)))) := by
        unfold takeKind
        rw [List.append_assoc] at hp1 hp2 ⊢
        rw [if_neg (by rw [hp1]; exact Bool.false_ne_true), if_pos hp2]
        rw [show (3 : Nat) = "dep".toList.length from rfl, List.drop_left]
      rw [hk]
      cases n2' with
      | nil =>
        simp only [List.nil_append]
        have e2 : List.dropWhile isPySpace (' ' :: (typ ++ ('>' :: rest))) =
            typ ++ ('>' :: rest) := by
          rw [List.dropWhile_cons_of_pos (by decide), dropWhile_space_at_word hty]
        rw [e2]
        have e4 : List.dropWhile isWordChar (typ ++ ('>' :: rest)) = '>' :: rest := by
          rw [dropWhile_word_run hty, List.dropWhile_cons_of_neg (by decide)]
        rw [e4]
        have e5 : List.takeWhile isPySpace ('>' :: rest) = [] :=
          List.takeWhile_cons_of_neg (by decide)
        rw [e5, if_pos (Or.inr (Or.inr (Or.inl rfl)))]
      | cons c n2'' =>
        have hcs : isPySpace c = false := by
          refine hn2 c ?_
          rw [List.mem_append]
          exact Or.inr (List.mem_cons_self c n2'')
        have e1 : List.takeWhile isPySpace
            (c :: (n2'' ++ (' ' :: (typ ++ ('>' :: rest))))) = [] := by
          rw [List.takeWhile_cons_of_neg]
          rw [hcs]
          exact Bool.false_ne_true
        simp only [hk, List.cons_append]
        rw [e1, if_pos (Or.inl rfl)]
    | false =>
      have hk : takeKind (n2 ++ (' ' :: (typ ++ ('>' :: rest)))) = none := by
        unfold takeKind
        rw [if_neg (by rw [hp1]; exact Bool.false_ne_true),
            if_neg (by rw [hp2]; exact Bool.false_ne_true)]
      rw [hk]

/-- No block match starts anywhere inside the rendering of a block whose
name the regex cannot match. -/
theorem tryBlock_fail_mid {b : Blk} (hsb : ScanBlk b)
    (hnw : isWordTok b.bname = false) :
    ∀ (u v : List Char), renderBlk b = u ++ v → v ≠ [] →
      ∀ t, tryBlock (v ++ t) = none := by
  obtain ⟨hname, hty, hbody⟩ := hsb
  intro u v huv hv t
  cases v with
  | nil => exact absurd rfl hv
  | cons d v' =>
    by_cases hd : d = '<'
    · subst hd
      have hflat : renderBlk b = '<' :: ((kindChars b.kind ++ [' ']) ++
          (b.bname ++ (([' '] ++ (b.btyp ++ ('>' :: b.body))) ++
            ('<' :: ('/' :: (kindChars b.kind ++ ['>', '\n'])))))) := by
        simp [renderBlk, List.append_assoc]
      rw [hflat] at huv
      cases u with
      | nil =>
        rw [List.nil_append, List.cons.injEq] at huv
        have hshape : ('<' :: v') ++ t = '<' :: (kindChars b.kind ++ (' ' ::
            (b.bname ++ (' ' :: (b.btyp ++ ('>' :: (b.body ++ ('<' :: ('/' ::
              (kindChars b.kind ++ ('>' :: ('\n' :: t)))))))))))) := by
          rw [List.cons_append, ← huv.2]
          simp [List.append_assoc]
        rw [hshape]
        exact tryBlock_fail_header hname hnw hty _
      | cons u0 u' =>
        rw [List.cons_append u0 u' ('<' :: v'), List.cons.injEq] at huv
        have hS1free : ∀ c ∈ kindChars b.kind ++ [' '], c ≠ '<' := by
          intro c hc
          rcases List.mem_append.mp hc with h1 | h1
          · exact kindChars_ne_lt c h1
          · rw [List.mem_singleton] at h1
            subst h1; decide
        obtain ⟨u1, h3, -⟩ := lt_split hS1free huv.2
        rcases lt_split_or h3 with ⟨n1, n2, hbname, hw⟩ | ⟨u2, h4⟩
        · have hn2 : ∀ c ∈ n2, isPySpace c = false := by
            intro c hc
            refine hname c ?_
            rw [hbname, List.mem_append, List.mem_cons]
            exact Or.inr (Or.inr hc)
          have hshape : ('<' :: v') ++ t = '<' :: (n2 ++ (' ' :: (b.btyp ++
              ('>' :: (b.body ++ ('<' :: ('/' :: (kindChars b.kind ++
                ('>' :: ('\n' :: t)))))))))) := by
            rw [List.cons_append, hw]
            simp [List.append_assoc]
          rw [hshape]
          exact tryBlock_fail_inner hn2 hty _
        · have hS2free : ∀ c ∈ [' '] ++ (b.btyp ++ ('>' :: b.body)), c ≠ '<' := by
            intro c hc
            rcases List.mem_append.mp hc with h1 | h1
            · rw [List.mem_singleton] at h1
              subst h1; decide
            · rcases List.mem_append.mp h1 with h2 | h2
              · exact word_ne_lt (hty.2 c h2)
              · rcases List.mem_cons.mp h2 with h3 | h3
                · subst h3; decide
                · exact hbody c h3
          obtain ⟨u3, h5, -⟩ := lt_split hS2free h4
          cases u3 with
          | nil =>
            rw [List.nil_append, List.cons.injEq] at h5
            have hshape : ('<' :: v') ++ t =
                '<' :: ('/' :: ((kindChars b.kind ++ ['>', '\n']) ++ t)) := by
              rw [List.cons_append, ← h5.2]
              simp [List.append_assoc]
            rw [hshape]
            exact tryBlock_fail_slash _
          | cons u30 u3' =>
            exfalso
            rw [List.cons_append, List.cons.injEq] at h5
            have hmem : '<' ∈ '/' :: (kindChars b.kind ++ ['>', '\n']) := by
              rw [h5.2]
              exact List.mem_append_right u3' (List.mem_cons_self _ _)
            rcases List.mem_cons.mp hmem with h6 | h6
            · exact absurd h6 (by decide)
            · rcases List.mem_append.mp h6 with h7 | h7
              · exact kindChars_ne_lt '<' h7 rfl
              · rcases List.mem_cons.mp h7 with h8 | h8
                · exact absurd h8 (by decide)
                · rw [List.mem_singleton] at h8
                  exact absurd h8 (by decide)
    · rw [List.cons_append]
      exact tryBlock_not_lt hd

/-- If no block match starts anywhere inside `R`, the scanner walks
through `R` character by character. -/
theorem scanBlocks_skip_all : ∀ (R T : List Char),
    (∀ u v, R = u ++ v → v ≠ [] → tryBlock (v ++ T) = none) →
    scanBlocks (R ++ T) = scanBlocks T := by
  intro R
  induction R with
  | nil => intro T _; rw [List.nil_append]
  | cons c R' ih =>
    intro T h
    have h0 : tryBlock ((c :: R') ++ T) = none := h [] (c :: R') rfl (by simp)
    rw [List.cons_append] at h0 ⊢
    rw [scanBlocks_skip h0]
    exact ih T (fun u v huv hv => h (c :: u) v (by rw [huv, List.cons_append]) hv)

/-- Scanning a rendering of arbitrarily mixed blocks: the blocks whose
names are `\w+` words are matched in order, the others are skipped. -/
theorem scanBlocks_render_mixed : ∀ {bs : List Blk}, (∀ b ∈ bs, ScanBlk b) →
    scanBlocks (renderBlocks bs) =
      (bs.filter (fun b => isWordTok b.bname)).map (fun b => (b.bname, b.body)) := by
  intro bs
  induction bs with
  | nil =>
    intro _
    simp only [renderBlocks, List.map_nil, List.flatten_nil, List.filter_nil]
    exact scanBlocks_nil
  | cons b bs ih =>
    intro h
    have hb : ScanBlk b := h b (List.mem_cons_self b bs)
    have hrest : ∀ b2 ∈ bs, ScanBlk b2 := fun b2 hm => h b2 (List.mem_cons_of_mem b hm)
    have e1 : renderBlocks (b :: bs) = renderBlk b ++ renderBlocks bs := by
      simp [renderBlocks]
    cases hword : isWordTok b.bname with
    | true =>
      rw [e1,
          scanBlocks_eq_some (tryBlock_render (scanBlk_wfBlk hb hword) (renderBlocks bs)),
          scanBlocks_skip (tryBlock_not_lt (by decide)), ih hrest,
          List.filter_cons]
      simp [hword]
    | false =>
      rw [e1,
          scanBlocks_skip_all (renderBlk b) (renderBlocks bs)
            (fun u v huv hv => tryBlock_fail_mid hb hword u v huv hv (renderBlocks bs)),
          ih hrest,
          List.filter_cons]
      simp [hword]

/-! ### Facts the pipeline guarantees about the node list -/

theorem pySplitWs_tok_no_space_aux :
    ∀ (n : Nat) (l : List Char), l.length < n →
      ∀ t ∈ pySplitWs l, ∀ c ∈ t, isPySpace c = false := by
  intro n
  induction n with
  | zero => intro l h; omega
  | succ m ih =>
    intro l hlen t ht c hc
    cases l with
    | nil => rw [pySplitWs_nil] at ht; exact absurd ht (by simp)
    | cons d ds =>
      simp only [List.length_cons] at hlen
      rw [pySplitWs_cons] at ht
      by_cases hd : isPySpace d
      · rw [if_pos hd] at ht
        exact ih ds (by omega) t ht c hc
      · rw [if_neg hd] at ht
        rcases List.mem_cons.mp ht with h1 | h1
        · subst h1
          rcases List.mem_cons.mp hc with h2 | h2
          · subst h2
            exact Bool.eq_false_iff.mpr hd
          · have := List.mem_takeWhile_imp (p := fun e => !isPySpace e) h2
            simpa using this
        · have hlen2 := length_dropWhile_le (fun e => !isPySpace e) ds
          exact ih _ (by omega) t h1 c hc

/-- `split()` tokens contain no whitespace. -/
theorem pySplitWs_tok_no_space {l t : List Char} (ht : t ∈ pySplitWs l) :
    ∀ c ∈ t, isPySpace c = false :=
  pySplitWs_tok_no_space_aux (l.length + 1) l (Nat.lt_succ_self _) t ht

/-- A parsed component's node tokens come from the line's `split()`. -/
theorem parseLine_comp_nodes {line : List Char} {c : Component}
    (h : parseLine line = .comp c) :
    ∀ t ∈ c.nodes, t ∈ pySplitWs (pyStrip line) := by
  simp only [parseLine] at h
  split at h
  · exact absurd h (by simp)
  · split at h
    · exact absurd h (by simp)
    · split at h
      · exact absurd h (by simp)
      · rename_i tid rest heq
        split at h
        · exact absurd h (by simp)
        · split at h
          · exact absurd h (by simp)
          · rw [LineOut.comp.injEq] at h
            subst h
            intro t ht
            rw [heq]
            exact List.mem_cons_of_mem tid ((List.takeWhile_prefix _).subset ht)

theorem parseFold_nodeTokens_ws :
    ∀ (lines : List (List Char)) (st : ParseOut),
      (∀ t ∈ st.nodeTokens, ∀ c ∈ t, isPySpace c = false) →
      ∀ t ∈ (lines.foldl parseStep st).nodeTokens, ∀ c ∈ t, isPySpace c = false := by
  intro lines
  induction lines with
  | nil => intro st h; exact h
  | cons l rest ih =>
    intro st h
    simp only [List.foldl_cons]
    refine ih _ ?_
    unfold parseStep
    cases hpl : parseLine l with
    | skip => exact h
    | dc ps => exact h
    | comp c =>
      intro t ht
      simp only [List.mem_append] at ht
      rcases ht with h1 | h1
      · exact h t h1
      · exact fun c2 hc2 =>
          pySplitWs_tok_no_space (parseLine_comp_nodes hpl t h1) c2 hc2

theorem parseNetlist_nodeTokens_ws (txt : List Char) :
    ∀ t ∈ (parseNetlist txt).nodeTokens, ∀ c ∈ t, isPySpace c = false :=
  parseFold_nodeTokens_ws _ _ (by intro t ht; exact absurd ht (by simp))

theorem nodeListOf_sub {tokens : List (List Char)} {t : List Char}
    (h : t ∈ nodeListOf tokens) : t ∈ tokens := by
  unfold nodeListOf at h
  have h1 := List.mem_of_mem_erase h
  have h2 := List.mem_of_mem_erase h1
  have h3 := (List.perm_insertionSort (fun a b => strLeB a b = true)
      tokens.dedup).mem_iff.mp h2
  exact List.mem_dedup.mp h3

/-- The node map has no duplicate names: `set` deduplicates and
`sorted`/`remove` preserve that. -/
theorem nodeListOf_nodup (tokens : List (List Char)) : (nodeListOf tokens).Nodup := by
  unfold nodeListOf
  exact (((List.perm_insertionSort (fun a b => strLeB a b = true)
      tokens.dedup).symm.nodup (List.nodup_dedup tokens)).erase _).erase _

theorem nodup_getElem?_unique {α : Type} {l : List α} (hnd : l.Nodup)
    {i : Nat} {a : α} (hi : l[i]? = some a) :
    ∀ j, i < j → l[j]? ≠ some a := by
  intro j hij hj
  obtain ⟨hlt, -⟩ := List.getElem?_eq_some.mp hi
  have h2 : l[i]? = l[j]? := by rw [hi, hj]
  have := List.getElem?_inj hlt hnd h2
  omega

/-- Inversion of a successful `solve`: the returned node map is the
parser's node list. -/
theorem solve_ok_nl {txt : List Char} {pr : List (List Char) × Vec}
    (h : solve txt = .ok pr) :
    pr.1 = nodeListOf (parseNetlist txt).nodeTokens := by
  simp only [solve] at h
  cases hst : stampList (nodeListOf (parseNetlist txt).nodeTokens)
      (vsourcesOf (parseNetlist txt).comps)
      (nodeListOf (parseNetlist txt).nodeTokens).length
      (parseNetlist txt).comps ((fun _ _ => 0), (fun _ => 0)) with
  | error e =>
    rw [hst] at h
    simp [Bind.bind, Except.bind] at h
  | ok GI =>
    rw [hst] at h
    simp only [Bind.bind, Except.bind, Except.ok.injEq] at h
    rw [← h]

/-- `encodeBlocks` succeeds as soon as the three sweep parameters parse;
the node list and solution do not matter. -/
theorem encodeBlocks_ok_of_params {txt : List Char}
    (hstart : (pyFloat (pyGet (simParamsOf txt) "Start".toList "0".toList)).isSome
      = true)
    (hstop : (pyFloat (pyGet (simParamsOf txt) "Stop".toList "10".toList)).isSome
      = true)
    (hp : (pyInt (pyGet (simParamsOf txt) "Points".toList "2".toList)).isSome
      = true)
    (nl : List (List Char)) (x : Vec) :
    ∃ bs, encodeBlocks txt nl x = .ok bs := by
  simp only [encodeBlocks]
  cases h1 : pyFloat (pyGet (simParamsOf txt) "Start".toList "0".toList) with
  | none => rw [h1] at hstart; exact absurd hstart (by simp)
  | some s =>
    cases h2 : pyFloat (pyGet (simParamsOf txt) "Stop".toList "10".toList) with
    | none => rw [h2] at hstop; exact absurd hstop (by simp)
    | some st =>
      cases h3 : pyInt (pyGet (simParamsOf txt) "Points".toList "2".toList) with
      | none => rw [h3] at hp; exact absurd hp (by simp)
      | some p =>
        simp only [toFloatExc, h1, h2, h3, Bind.bind, Except.bind]
        exact ⟨_, rfl⟩

/-- All blocks a successful encoder run emits are scannable: the sweep
parameter name is a `\w+` word, `Points` is nonnegative, and the node
names — `split()` tokens — contain no whitespace.  (Their names need
not be words: non-word-named blocks are skipped, not mis-parsed.) -/
theorem encodeBlocks_scanBlk {txt : List Char} {nl : List (List Char)} {x : Vec}
    {ivals : List ℚ} {p : ℤ} (hp0 : 0 ≤ p)
    (hparam : WfWord (pyGet (simParamsOf txt) "Param".toList "sweep".toList))
    (hnl : ∀ t ∈ nl, ∀ c ∈ t, isPySpace c = false) :
    ∀ b ∈ (⟨.indep, pyGet (simParamsOf txt) "Param".toList "sweep".toList,
              renderInt p, valBody ivals⟩ : Blk) ::
           nl.enum.map (fun pr => ⟨.dep, pr.2,
              pyGet (simParamsOf txt) "Param".toList "sweep".toList,
              valBody (List.replicate p.toNat (x pr.1))⟩),
      ScanBlk b := by
  intro b hb
  rcases List.mem_cons.mp hb with h | h
  · subst h
    exact ⟨fun c hc => word_not_space (hparam.2 c hc),
           renderInt_nonneg_wfWord hp0, valBody_ne_lt ivals⟩
  · obtain ⟨pr, hpr, hb2⟩ := List.mem_map.mp h
    subst hb2
    exact ⟨hnl pr.2 (mem_enum_snd hpr), hparam, valBody_ne_lt _⟩

/-- The first match when scanning the filtered enumerated node list
backwards for a name is the mapped entry at the name's last index,
provided that entry survives the filter. -/
theorem find?_filter_enum_reverse_map {β : Type} {nl : List (List Char)} {idx : Nat}
    {nm : List Char} {Q : Nat × List Char → Bool}
    {h : Nat × List Char → List Char × β}
    (hfst : ∀ pr, (h pr).1 = pr.2)
    (hQ : Q (idx, nm) = true)
    (hidx : nl[idx]? = some nm)
    (hlast : ∀ j, idx < j → nl[j]? ≠ some nm) :
    (((nl.enum.filter Q).map h).reverse).find? (fun kv => kv.1 == nm) =
      some (h (idx, nm)) := by
  rw [enum_split hidx, List.filter_append, List.filter_cons_of_pos hQ,
      List.map_append, List.map_cons, List.reverse_append,
      List.reverse_cons, List.append_assoc]
  have hnone : ((((nl.drop (idx + 1)).enumFrom (idx + 1)).filter Q).map h).reverse.find?
      (fun kv => kv.1 == nm) = none := by
    rw [List.find?_eq_none]
    intro kv hkv
    rw [List.mem_reverse] at hkv
    obtain ⟨pr, hpr, hkv2⟩ := List.mem_map.mp hkv
    subst hkv2
    have hpr2 := List.mem_of_mem_filter hpr
    obtain ⟨k, hk⟩ := List.mem_iff_getElem?.mp hpr2
    rw [List.getElem?_enumFrom] at hk
    cases hd : (nl.drop (idx + 1))[k]? with
    | none => rw [hd] at hk; exact absurd hk (by simp)
    | some b =>
      rw [hd] at hk
      simp only [Option.map_some', Option.some.injEq] at hk
      have hb : pr.2 = b := by rw [← hk]
      rw [List.getElem?_drop] at hd
      have hne : b ≠ nm := by
        intro hbnm
        exact hlast (idx + 1 + k) (by omega) (by rw [hd, hbnm])
      rw [hfst pr, hb]
      simp [hne]
  rw [find?_append_none hnone, List.singleton_append,
      List.find?_cons_of_pos _ (by rw [hfst]; simp)]

/-- C4 (amended): for every solved circuit whose sweep parameter name is
a `\w+` word and whose `Points` is nonnegative, decoding the encoder's
output recovers, for every free node whose name is a `\w+` word, exactly
`Points` copies of that node's solved value put through the
`"%e"`-format/`float(...)` round trip — whatever the other node names
look like.  (Nodes with non-word names themselves are dropped by the
decoder's block regex — the counterexample.) -/
theorem c4_amended_roundtrip_word_names {txt : List Char} {nl : List (List Char)}
    {x : Vec} {bs : List Blk} {p : ℤ} {idx : Nat} {nm : List Char}
    (hsolve : solve txt = .ok (nl, x))
    (henc : encodeBlocks txt nl x = .ok bs)
    (hp : pyInt (pyGet (simParamsOf txt) "Points".toList "2".toList) = some p)
    (hp0 : 0 ≤ p)
    (hparam : WfWord (pyGet (simParamsOf txt) "Param".toList "sweep".toList))
    (hnm : WfWord nm)
    (hidx : nl[idx]? = some nm) :
    decodeLookup (renderBlocks bs) nm =
      some (List.replicate p.toNat ((pyFloat (fmtE (x idx))).getD 0)) := by
  have hnleq : nl = nodeListOf (parseNetlist txt).nodeTokens := solve_ok_nl hsolve
  have hws : ∀ t ∈ nl, ∀ c ∈ t, isPySpace c = false := by
    intro t ht
    rw [hnleq] at ht
    exact parseNetlist_nodeTokens_ws txt t (nodeListOf_sub ht)
  have hnd : nl.Nodup := by
    rw [hnleq]
    exact nodeListOf_nodup _
  have hlast : ∀ j, idx < j → nl[j]? ≠ some nm := nodup_getElem?_unique hnd hidx
  obtain ⟨ivals, hbs⟩ := encodeBlocks_ok_shape henc hp
  subst hbs
  have hscan := @encodeBlocks_scanBlk txt nl x ivals p hp0 hparam hws
  unfold decodeLookup decodeAssign
  rw [scanBlocks_render_mixed hscan, List.map_map]
  have hc : ((fun (pr : List Char × List Char) => (pr.1, parseVals pr.2)) ∘
      (fun b : Blk => (b.bname, b.body))) =
      (fun b : Blk => (b.bname, parseVals b.body)) := rfl
  rw [hc]
  have hfil : (((⟨.indep, pyGet (simParamsOf txt) "Param".toList "sweep".toList,
          renderInt p, valBody ivals⟩ : Blk) ::
        nl.enum.map (fun pr => ⟨.dep, pr.2,
          pyGet (simParamsOf txt) "Param".toList "sweep".toList,
          valBody (List.replicate p.toNat (x pr.1))⟩)).filter
        (fun b => isWordTok b.bname)) =
      (⟨.indep, pyGet (simParamsOf txt) "Param".toList "sweep".toList,
          renderInt p, valBody ivals⟩ : Blk) ::
        ((nl.enum.filter (fun pr => isWordTok pr.2)).map
          (fun pr => (⟨.dep, pr.2,
            pyGet (simParamsOf txt) "Param".toList "sweep".toList,
            valBody (List.replicate p.toNat (x pr.1))⟩ : Blk))) := by
    rw [List.filter_cons]
    simp only [wfWord_isWordTok hparam, if_true]
    rw [List.filter_map]
    rfl
  rw [hfil, List.map_cons, List.map_map, getLast?_filter_eq_find?_reverse,
      List.reverse_cons]
  rw [find?_append_some (find?_filter_enum_reverse_map (fun pr => rfl)
      (wfWord_isWordTok hnm) hidx hlast) _]
  simp only [Option.map_some', Function.comp_apply, parseVals_valBody,
    List.map_replicate]

/-- A mixed two-node circuit: the free nodes are the word-named `a` and
the non-word-named `n-1`. -/
def netC4w : List Char :=
  "R:R1 a 0 R=\"1000\"\nR:R2 n-1 0 R=\"1000\"".toList

/-- C4 witness: the amended theorem applied to the mixed circuit; the
word-named node `a` is recovered (two copies of its re-parsed formatted
solved value) even though node `n-1` coexists in the same circuit. -/
theorem c4_amended_roundtrip_word_names_witness :
    ∃ r bs, solve netC4w = .ok r ∧ encodeBlocks netC4w r.1 r.2 = .ok bs ∧
      decodeLookup (renderBlocks bs) ("a".toList) =
        some (List.replicate (2 : ℤ).toNat
          ((pyFloat (fmtE (r.2 0))).getD 0)) := by
  have h0 : (solve netC4w).map (fun _ => ()) = .ok () := by
    with_unfolding_all decide
  cases h1 : solve netC4w with
  | error e => rw [h1] at h0; exact absurd h0 (by simp [Except.map])
  | ok r =>
    have hnl : r.1 = ["a".toList, "n-1".toList] := by
      rw [solve_ok_nl h1]
      with_unfolding_all decide
    obtain ⟨bs, henc⟩ := @encodeBlocks_ok_of_params netC4w
      (by with_unfolding_all decide) (by with_unfolding_all decide)
      (by with_unfolding_all decide) r.1 r.2
    refine ⟨r, bs, rfl, henc, ?_⟩
    exact @c4_amended_roundtrip_word_names netC4w r.1 r.2 bs 2 0 ("a".toList)
      (by rw [h1]) henc
      (by with_unfolding_all decide) (by decide)
      (by exact ⟨by with_unfolding_all decide, by with_unfolding_all decide⟩)
      (by exact ⟨by with_unfolding_all decide, by with_unfolding_all decide⟩)
      (by rw [hnl]; rfl)

/-! ### Auxiliary-index ownership under pairwise-distinct sources -/

/-- Under pairwise `==`-distinctness, `vsources.index` is the identity
on positions: the first `==`-equal element of the list is the element
itself. -/
theorem findIdx?_pairwise_self {vs : List Component}
    (hdist : vs.Pairwise (fun a b => pyCompEq a b = false)) :
    ∀ {k : Nat} {c : Component}, vs[k]? = some c →
      ∀ (i : Nat), List.findIdx? (fun v => pyCompEq v c) vs i = some (i + k) := by
  induction vs with
  | nil =>
    intro k c hk i
    rw [List.getElem?_nil] at hk
    exact absurd hk (by simp)
  | cons v vtl ih =>
    intro k c hk i
    rw [List.findIdx?_cons]
    cases k with
    | zero =>
      rw [List.getElem?_cons_zero, Option.some.injEq] at hk
      subst hk
      rw [if_pos (pyCompEq_refl v)]
      rfl
    | succ j =>
      rw [List.getElem?_cons_succ] at hk
      have hmem : c ∈ vtl := List.mem_iff_getElem?.mpr ⟨j, hk⟩
      have hne : pyCompEq v c = false := (List.pairwise_cons.mp hdist).1 c hmem
      rw [if_neg (by rw [hne]; exact Bool.false_ne_true),
          ih (List.pairwise_cons.mp hdist).2 hk (i + 1)]
      congr 1
      omega

/-- C3 (amended): when no two voltage sources of the list are Python
`==`-equal, the `k`-th `Vdc` finds itself at position `k`
(`vsources.index(c) = k`, so distinct sources own distinct auxiliary
unknowns), its stamp writes exactly the KVL `±1` entries of auxiliary
row and column `N + k`, and its parsed source voltage is added to
`I[N + k]`. -/
theorem c3_amended_distinct_sources_own_auxiliary {vs : List Component}
    (hdist : vs.Pairwise (fun a b => pyCompEq a b = false))
    {k : Nat} {c : Component} (hk : vs[k]? = some c)
    (nl : List (List Char)) (N : Nat) (GI : Mat × Vec)
    (hty : c.ctype = "Vdc".toList)
    {n1 n2 : Option Nat} {rest : List (Option Nat)}
    (hnis : resolveList nl c.nodes = .ok (n1 :: n2 :: rest))
    {U : ℚ} (hU : pyFloat (pyGet c.params "U".toList "1".toList) = some U) :
    vs.findIdx? (fun v => pyCompEq v c) = some k ∧
    stampOne nl vs N GI c =
      .ok (applyAdds GI.1 (vStampUpds n1 n2 (N + k)),
           applyVAdds GI.2 [(N + k, U)]) ∧
    (∀ e ∈ vStampUpds n1 n2 (N + k), e.1 = N + k ∨ e.2.1 = N + k) ∧
    applyVAdds GI.2 [(N + k, U)] (N + k) = GI.2 (N + k) + U := by
  have hfind : vs.findIdx? (fun v => pyCompEq v c) = some k := by
    have := findIdx?_pairwise_self hdist hk 0
    rw [Nat.zero_add] at this
    exact this
  have hcR : ¬ c.ctype = "R".toList := by
    rw [hty]
    with_unfolding_all decide
  refine ⟨hfind, ?_, ?_, ?_⟩
  · unfold stampOne
    rw [hnis]
    simp only [Bind.bind, Except.bind]
    rw [if_neg hcR, if_pos hty, hfind]
    simp only [toFloatExc, hU]
  · intro e he
    unfold vStampUpds at he
    rcases List.mem_append.mp he with h | h
    · cases n1 with
      | none => simp at h
      | some a =>
        rcases List.mem_cons.mp h with h2 | h2
        · subst h2; right; rfl
        · rw [List.mem_singleton] at h2
          subst h2; left; rfl
    · cases n2 with
      | none => simp at h
      | some b =>
        rcases List.mem_cons.mp h with h2 | h2
        · subst h2; right; rfl
        · rw [List.mem_singleton] at h2
          subst h2; left; rfl
  · simp [applyVAdds, vAdd]

/-- Two `==`-distinct voltage sources for the C3 witness. -/
def c3wA : Component :=
  ⟨"Vdc".toList, "V1".toList, ["a".toList, "0".toList],
   [("U".toList, "5".toList)]⟩

def c3wB : Component :=
  ⟨"Vdc".toList, "V2".toList, ["b".toList, "0".toList],
   [("U".toList, "3".toList)]⟩

/-- C3 witness: the amended theorem applied to two concrete distinct
sources; the second one (k = 1) stamps auxiliary index `N + 1 = 3`. -/
theorem c3_amended_distinct_sources_own_auxiliary_witness :
    ([c3wA, c3wB].Pairwise (fun a b => pyCompEq a b = false)) ∧
    ([c3wA, c3wB][1]? = some c3wB) ∧
    (resolveList ["a".toList, "b".toList] c3wB.nodes = .ok [some 1, none]) ∧
    ([c3wA, c3wB].findIdx? (fun v => pyCompEq v c3wB) = some 1 ∧
     stampOne ["a".toList, "b".toList] [c3wA, c3wB] 2
        ((fun _ _ => 0 : Mat), (fun _ => 0 : Vec)) c3wB =
       .ok (applyAdds (fun _ _ => 0) (vStampUpds (some 1) none (2 + 1)),
            applyVAdds (fun _ => 0) [(2 + 1, 3)]) ∧
     (∀ e ∈ vStampUpds (some 1) none (2 + 1), e.1 = 2 + 1 ∨ e.2.1 = 2 + 1) ∧
     applyVAdds (fun _ => 0) [(2 + 1, (3 : ℚ))] (2 + 1) =
       (fun _ => (0 : ℚ)) (2 + 1) + 3) := by
  have hdist : [c3wA, c3wB].Pairwise (fun a b => pyCompEq a b = false) :=
    List.pairwise_cons.mpr
      ⟨fun b hb => by
          rw [List.mem_singleton] at hb
          subst hb
          with_unfolding_all decide,
        List.pairwise_singleton _ _⟩
  refine ⟨hdist, rfl, by with_unfolding_all decide, ?_⟩
  exact @c3_amended_distinct_sources_own_auxiliary [c3wA, c3wB] hdist 1 c3wB rfl
    ["a".toList, "b".toList] 2 ((fun _ _ => 0), (fun _ => 0))
    rfl (some 1) none [] (by with_unfolding_all decide) 3
    (by with_unfolding_all decide)

theorem netC10bs_wf : ∀ b ∈ netC10bs, WfBlk b := by
  intro b hb
  simp only [netC10bs, List.mem_cons, List.not_mem_nil, or_false] at hb
  rcases hb with h | h <;> subst h <;>
    exact ⟨⟨by with_unfolding_all decide, by with_unfolding_all decide⟩,
           ⟨by with_unfolding_all decide, by with_unfolding_all decide⟩,
           by with_unfolding_all decide⟩

/-- C10 witness: the theorem applied to two concrete same-named blocks of
different kinds; the decoder returns the later block's values. -/
theorem c10_decoder_keyed_by_name_last_wins_witness :
    (∀ b ∈ netC10bs, WfBlk b) ∧
      decodeLookup (renderBlocks netC10bs) ("V1".toList) =
        (((netC10bs.map (fun b => (b.bname, parseVals b.body))).filter
            (fun kv => kv.1 == "V1".toList)).getLast?).map (fun kv => kv.2) :=
  ⟨netC10bs_wf,
   c10_decoder_keyed_by_name_last_wins netC10bs_wf ("V1".toList)⟩

end Qucs
